import Mathlib

/-!
Verification of the recipe-app data-access layer: ownership-scoped CRUD over
Tag, Ingredient and Recipe entities, the assigned-only filter, default
orderings, get-or-create of tags/ingredients during recipe writes, and the
admin page field configuration.

The repository's `core/models.py`, `recipe/views.py` and
`recipe/serializers.py` are not in the source tree (only their tests and
`core/admin.py` are), so the repository operations below are modelled from
the specification's contracts; `core/admin.py` is embedded directly.
-/

namespace RecipeApp

/-- Modelled from the spec: a Tag row of `core/models.py` (file missing from
the source tree): id, owning User reference, name. -/
structure Tag where
  id : Nat
  user : Nat
  name : String
  deriving DecidableEq

/-- Modelled from the spec: an Ingredient row of `core/models.py` (file
missing from the source tree): id, owning User reference, name. -/
structure Ingredient where
  id : Nat
  user : Nat
  name : String
  deriving DecidableEq

/-- Modelled from the spec: a Recipe row of `core/models.py` (file missing
from the source tree): id, owning User reference, title, time_minutes
(non-negative integer), price (non-negative fixed-precision decimal,
modelled as a count of its smallest unit), and the two many-to-many
association sets, modelled as lists of referenced ids. -/
structure Recipe where
  id : Nat
  user : Nat
  title : String
  time_minutes : Nat
  price : Nat
  tags : List Nat
  ingredients : List Nat
  deriving DecidableEq

/-- Modelled from the spec: the persistent store holding the three entity
tables. -/
structure Store where
  tags : List Tag
  ingredients : List Ingredient
  recipes : List Recipe
  deriving DecidableEq

/-- All ids currently present in the store. -/
def Store.allIds (s : Store) : List Nat :=
  s.tags.map Tag.id ++ s.ingredients.map Ingredient.id ++ s.recipes.map Recipe.id

/-- A fresh id for a newly inserted row (the autoincrement primary key). -/
def Store.freshId (s : Store) : Nat := s.allIds.foldr max 0 + 1

/-- Well-formedness of the store: primary keys are unique per table. -/
def Store.WF (s : Store) : Prop :=
  (s.tags.map Tag.id).Nodup ∧ (s.ingredients.map Ingredient.id).Nodup ∧
    (s.recipes.map Recipe.id).Nodup

instance (s : Store) : Decidable s.WF :=
  inferInstanceAs (Decidable (_ ∧ _ ∧ _))

/-- Keep the first row for each key, dropping later rows whose key was
already seen: the DISTINCT applied to the ordered row stream. -/
def dedupByKeyAux {α : Type} (key : α → Nat) (seen : List Nat) : List α → List α
  | [] => []
  | x :: xs =>
    if key x ∈ seen then dedupByKeyAux key seen xs
    else x :: dedupByKeyAux key (key x :: seen) xs

/-- Deduplicate a list of rows by key, keeping first occurrences. -/
def dedupByKey {α : Type} (key : α → Nat) (l : List α) : List α :=
  dedupByKeyAux key [] l

/-- Lexicographic less-or-equal on character data: the case-sensitive
collation used to order names. -/
def strLeb : List Char → List Char → Bool
  | [], _ => true
  | _ :: _, [] => false
  | c :: cs, d :: ds =>
    if c.toNat < d.toNat then true
    else if d.toNat < c.toNat then false
    else strLeb cs ds

/-- Name order on strings, as a proposition. -/
def strLe (a b : String) : Prop := strLeb a.data b.data = true

instance (a b : String) : Decidable (strLe a b) :=
  inferInstanceAs (Decidable (_ = true))

theorem strLeb_total : ∀ a b : List Char, strLeb a b = true ∨ strLeb b a = true := by
  intro a
  induction a with
  | nil => intro b; left; rfl
  | cons c cs ih =>
    intro b
    cases b with
    | nil => right; rfl
    | cons d ds =>
      rcases Nat.lt_trichotomy c.toNat d.toNat with h | h | h
      · left; simp [strLeb, h]
      · have h1 : ¬ c.toNat < d.toNat := by omega
        have h2 : ¬ d.toNat < c.toNat := by omega
        simpa [strLeb, h1, h2] using ih ds
      · right; simp [strLeb, h]

theorem strLeb_trans :
    ∀ a b c : List Char, strLeb a b = true → strLeb b c = true →
      strLeb a c = true := by
  intro a
  induction a with
  | nil => intro b c _ _; rfl
  | cons x xs ih =>
    intro b c hab hbc
    cases b with
    | nil => simp [strLeb] at hab
    | cons y ys =>
      cases c with
      | nil => simp [strLeb] at hbc
      | cons z zs =>
        by_cases hxy : x.toNat < y.toNat
        · by_cases hyz : y.toNat < z.toNat
          · have hxz : x.toNat < z.toNat := lt_trans hxy hyz
            simp [strLeb, hxz]
          · by_cases hzy : z.toNat < y.toNat
            · simp [strLeb, hyz, hzy] at hbc
            · have hxz : x.toNat < z.toNat := by omega
              simp [strLeb, hxz]
        · by_cases hyx : y.toNat < x.toNat
          · simp [strLeb, hxy, hyx] at hab
          · by_cases hyz : y.toNat < z.toNat
            · have hxz : x.toNat < z.toNat := by omega
              simp [strLeb, hxz]
            · by_cases hzy : z.toNat < y.toNat
              · simp [strLeb, hyz, hzy] at hbc
              · have hxz : ¬ x.toNat < z.toNat := by omega
                have hzx : ¬ z.toNat < x.toNat := by omega
                have hab2 : strLeb xs ys = true := by
                  simpa [strLeb, hxy, hyx] using hab
                have hbc2 : strLeb ys zs = true := by
                  simpa [strLeb, hyz, hzy] using hbc
                simpa [strLeb, hxz, hzx] using ih ys zs hab2 hbc2

/-- Descending-by-name order used by the tag listing (order by name, desc). -/
def tagGE (a b : Tag) : Prop := strLe b.name a.name

instance : DecidableRel tagGE :=
  fun a b => inferInstanceAs (Decidable (strLe b.name a.name))

instance : IsTotal Tag tagGE := ⟨fun a b => strLeb_total b.name.data a.name.data⟩

instance : IsTrans Tag tagGE :=
  ⟨fun _ _ _ h1 h2 => strLeb_trans _ _ _ h2 h1⟩

/-- Descending-by-name order used by the ingredient listing. -/
def ingGE (a b : Ingredient) : Prop := strLe b.name a.name

instance : DecidableRel ingGE :=
  fun a b => inferInstanceAs (Decidable (strLe b.name a.name))

instance : IsTotal Ingredient ingGE :=
  ⟨fun a b => strLeb_total b.name.data a.name.data⟩

instance : IsTrans Ingredient ingGE :=
  ⟨fun _ _ _ h1 h2 => strLeb_trans _ _ _ h2 h1⟩

/-- Descending-by-id order used by the recipe listing (most recent first). -/
def recGE (a b : Recipe) : Prop := b.id ≤ a.id

instance : DecidableRel recGE :=
  fun a b => inferInstanceAs (Decidable (b.id ≤ a.id))

instance : IsTotal Recipe recGE := ⟨fun a b => Nat.le_total b.id a.id⟩

instance : IsTrans Recipe recGE := ⟨fun _ _ _ h1 h2 => le_trans h2 h1⟩

/-- Modelled from the spec: the row selection of the Tag repository list
operation (`recipe/views.py` is missing from the source tree): rows owned by
`owner`; when `assigned_only` is set, only rows appearing in the association
set of at least one Recipe owned by the same user. -/
def Store.tagSel (s : Store) (owner : Nat) (assigned_only : Bool) : List Tag :=
  let owned := s.tags.filter (fun t => t.user == owner)
  if assigned_only then
    owned.filter (fun t =>
      s.recipes.any (fun r => r.user == owner && r.tags.contains t.id))
  else owned

/-- Modelled from the spec: `list(owner, assigned_only)` of the Tag
repository: the selected rows ordered by name descending, deduplicated by
Tag identity. -/
def Store.listTags (s : Store) (owner : Nat) (assigned_only : Bool) : List Tag :=
  dedupByKey Tag.id (List.insertionSort tagGE (s.tagSel owner assigned_only))

/-- Modelled from the spec: id-addressed Tag read, scoped to the owner; a
row owned by someone else is never found (NotFound is `none`). -/
def Store.getTag (s : Store) (owner tid : Nat) : Option Tag :=
  s.tags.find? (fun t => t.id == tid && t.user == owner)

/-- Modelled from the spec: `update(owner, tag_id, fields)` of the Tag
repository: NotFound unless a row with this id is owned by `owner`;
otherwise applies the partial update (currently only `name`). -/
def Store.updateTag (s : Store) (owner tid : Nat) (newName : String) :
    Option (Tag × Store) :=
  match s.getTag owner tid with
  | none => none
  | some t =>
    let t2 : Tag := { t with name := newName }
    some (t2, { s with
      tags := s.tags.map (fun u =>
        if u.id == tid && u.user == owner then t2 else u) })

/-- Modelled from the spec: `delete(owner, tag_id)` of the Tag repository:
NotFound unless owned; otherwise removes the Tag and its associations to any
Recipe. -/
def Store.deleteTag (s : Store) (owner tid : Nat) : Option Store :=
  if s.tags.any (fun t => t.id == tid && t.user == owner) then
    some { s with
      tags := s.tags.filter (fun t => !(t.id == tid && t.user == owner)),
      recipes := s.recipes.map (fun r =>
        { r with tags := r.tags.filter (fun x => x != tid) }) }
  else none

/-- Modelled from the spec: the row selection of the Ingredient repository
list operation. -/
def Store.ingredientSel (s : Store) (owner : Nat) (assigned_only : Bool) :
    List Ingredient :=
  let owned := s.ingredients.filter (fun i => i.user == owner)
  if assigned_only then
    owned.filter (fun i =>
      s.recipes.any (fun r => r.user == owner && r.ingredients.contains i.id))
  else owned

/-- Modelled from the spec: `list(owner, assigned_only)` of the Ingredient
repository. -/
def Store.listIngredients (s : Store) (owner : Nat) (assigned_only : Bool) :
    List Ingredient :=
  dedupByKey Ingredient.id
    (List.insertionSort ingGE (s.ingredientSel owner assigned_only))

/-- Modelled from the spec: id-addressed Ingredient read, scoped to owner. -/
def Store.getIngredient (s : Store) (owner iid : Nat) : Option Ingredient :=
  s.ingredients.find? (fun i => i.id == iid && i.user == owner)

/-- Modelled from the spec: `update(owner, ingredient_id, fields)` of the
Ingredient repository. -/
def Store.updateIngredient (s : Store) (owner iid : Nat) (newName : String) :
    Option (Ingredient × Store) :=
  match s.getIngredient owner iid with
  | none => none
  | some i =>
    let i2 : Ingredient := { i with name := newName }
    some (i2, { s with
      ingredients := s.ingredients.map (fun u =>
        if u.id == iid && u.user == owner then i2 else u) })

/-- Modelled from the spec: `delete(owner, ingredient_id)` of the Ingredient
repository. -/
def Store.deleteIngredient (s : Store) (owner iid : Nat) : Option Store :=
  if s.ingredients.any (fun i => i.id == iid && i.user == owner) then
    some { s with
      ingredients := s.ingredients.filter
        (fun i => !(i.id == iid && i.user == owner)),
      recipes := s.recipes.map (fun r =>
        { r with ingredients := r.ingredients.filter (fun x => x != iid) }) }
  else none

/-- Modelled from the spec: `list(owner)` of the Recipe repository, scoped
strictly to the owner, most-recent id first. -/
def Store.listRecipes (s : Store) (owner : Nat) : List Recipe :=
  List.insertionSort recGE (s.recipes.filter (fun r => r.user == owner))

/-- Modelled from the spec: `get(owner, recipe_id)` of the Recipe
repository, scoped strictly to the owner. -/
def Store.getRecipe (s : Store) (owner rid : Nat) : Option Recipe :=
  s.recipes.find? (fun r => r.id == rid && r.user == owner)

/-- Modelled from the spec: find-by-(owner,name)-or-insert for Tags: reuse
an existing Tag owned by `owner` with that exact name if one exists,
otherwise create it. -/
def Store.getOrCreateTag (s : Store) (owner : Nat) (n : String) : Tag × Store :=
  match s.tags.find? (fun t => t.user == owner && t.name == n) with
  | some t => (t, s)
  | none =>
    let t : Tag := ⟨s.freshId, owner, n⟩
    (t, { s with tags := s.tags ++ [t] })

/-- Modelled from the spec: find-by-(owner,name)-or-insert for
Ingredients. -/
def Store.getOrCreateIngredient (s : Store) (owner : Nat) (n : String) :
    Ingredient × Store :=
  match s.ingredients.find? (fun i => i.user == owner && i.name == n) with
  | some i => (i, s)
  | none =>
    let i : Ingredient := ⟨s.freshId, owner, n⟩
    (i, { s with ingredients := s.ingredients ++ [i] })

/-- Modelled from the spec: resolve a list of tag names to ids with
get-or-create semantics scoped per owner, threading the store. -/
def Store.resolveTags (s : Store) (owner : Nat) : List String → List Nat × Store
  | [] => ([], s)
  | n :: ns =>
    let p := s.getOrCreateTag owner n
    let q := p.2.resolveTags owner ns
    (p.1.id :: q.1, q.2)

/-- Modelled from the spec: resolve a list of ingredient names to ids with
get-or-create semantics scoped per owner. -/
def Store.resolveIngredients (s : Store) (owner : Nat) :
    List String → List Nat × Store
  | [] => ([], s)
  | n :: ns =>
    let p := s.getOrCreateIngredient owner n
    let q := p.2.resolveIngredients owner ns
    (p.1.id :: q.1, q.2)

/-- Modelled from the spec: `create(owner, fields)` of the Recipe
repository: requires a title (time_minutes and price are non-negative by
type); tags/ingredients are supplied as lists of names and resolved with
get-or-create semantics; the recipe row is inserted with the resolved
association sets. -/
def Store.createRecipe (s : Store) (owner : Nat) (title : String)
    (tm price : Nat) (tagNames ingNames : List String) :
    Option (Recipe × Store) :=
  if title.isEmpty then none
  else
    let p := s.resolveTags owner tagNames
    let q := p.2.resolveIngredients owner ingNames
    let r : Recipe := ⟨q.2.freshId, owner, title, tm, price, p.1, q.1⟩
    some (r, { q.2 with recipes := q.2.recipes ++ [r] })

/-- A partial update to a Recipe; `none` fields are left unchanged, and a
supplied name list replaces the whole association set. -/
structure RecipePatch where
  title : Option String
  time_minutes : Option Nat
  price : Option Nat
  tagNames : Option (List String)
  ingredientNames : Option (List String)
  deriving DecidableEq

/-- Modelled from the spec: `update(owner, recipe_id, fields)` of the Recipe
repository: NotFound unless owned; full or partial replacement, including
replacing the entire tag/ingredient association set with the same
get-or-create semantics. -/
def Store.updateRecipe (s : Store) (owner rid : Nat) (p : RecipePatch) :
    Option (Recipe × Store) :=
  match s.getRecipe owner rid with
  | none => none
  | some r =>
    let tq := match p.tagNames with
      | none => (r.tags, s)
      | some ns => s.resolveTags owner ns
    let iq := match p.ingredientNames with
      | none => (r.ingredients, tq.2)
      | some ns => tq.2.resolveIngredients owner ns
    let r2 : Recipe := { r with
      title := p.title.getD r.title,
      time_minutes := p.time_minutes.getD r.time_minutes,
      price := p.price.getD r.price,
      tags := tq.1,
      ingredients := iq.1 }
    some (r2, { iq.2 with
      recipes := iq.2.recipes.map (fun q =>
        if q.id == rid && q.user == owner then r2 else q) })

/-- Modelled from the spec: `delete(owner, recipe_id)` of the Recipe
repository: NotFound unless owned; removes the Recipe row (and with it its
association rows); does not touch the Tag/Ingredient tables. -/
def Store.deleteRecipe (s : Store) (owner rid : Nat) : Option Store :=
  if s.recipes.any (fun r => r.id == rid && r.user == owner) then
    some { s with
      recipes := s.recipes.filter (fun r => !(r.id == rid && r.user == owner)) }
  else none

/-- Number of Tag rows with the given owner and exact name. -/
def Store.tagRowCount (s : Store) (owner : Nat) (n : String) : Nat :=
  (s.tags.filter (fun t => t.user == owner && t.name == n)).length

/-- Number of Ingredient rows with the given owner and exact name. -/
def Store.ingredientRowCount (s : Store) (owner : Nat) (n : String) : Nat :=
  (s.ingredients.filter (fun i => i.user == owner && i.name == n)).length

open List

section DedupLemmas

variable {α : Type} (key : α → Nat)

theorem dedupByKeyAux_sublist :
    ∀ (l : List α) (seen : List Nat), dedupByKeyAux key seen l <+ l := by
  intro l
  induction l with
  | nil => intro seen; simp [dedupByKeyAux]
  | cons x xs ih =>
    intro seen
    by_cases h : key x ∈ seen
    · simpa [dedupByKeyAux, h] using (ih seen).cons x
    · simpa [dedupByKeyAux, h] using (ih (key x :: seen)).cons₂ x

theorem dedupByKey_sublist (l : List α) : dedupByKey key l <+ l :=
  dedupByKeyAux_sublist key l []

theorem dedupByKeyAux_key_nodup :
    ∀ (l : List α) (seen : List Nat),
      ((dedupByKeyAux key seen l).map key).Nodup ∧
        ∀ k ∈ (dedupByKeyAux key seen l).map key, k ∉ seen := by
  intro l
  induction l with
  | nil => intro seen; simp [dedupByKeyAux]
  | cons x xs ih =>
    intro seen
    by_cases h : key x ∈ seen
    · simpa [dedupByKeyAux, h] using ih seen
    · have ih2 := ih (key x :: seen)
      have hstep : dedupByKeyAux key seen (x :: xs) =
          x :: dedupByKeyAux key (key x :: seen) xs := by
        simp [dedupByKeyAux, h]
      rw [hstep]
      refine ⟨?_, ?_⟩
      · simp only [List.map_cons, List.nodup_cons]
        refine ⟨fun hmem => ?_, ih2.1⟩
        exact (ih2.2 (key x) hmem) (List.mem_cons_self _ _)
      · intro k hk
        simp only [List.map_cons, List.mem_cons] at hk
        rcases hk with rfl | hk
        · exact h
        · exact fun hks => (ih2.2 k hk) (List.mem_cons_of_mem _ hks)

theorem dedupByKey_key_nodup (l : List α) : ((dedupByKey key l).map key).Nodup :=
  (dedupByKeyAux_key_nodup key l []).1

theorem dedupByKeyAux_eq_self :
    ∀ (l : List α) (seen : List Nat), (l.map key).Nodup →
      (∀ k ∈ l.map key, k ∉ seen) → dedupByKeyAux key seen l = l := by
  intro l
  induction l with
  | nil => intro seen _ _; simp [dedupByKeyAux]
  | cons x xs ih =>
    intro seen hnd hdisj
    have hx : key x ∉ seen := hdisj (key x) (by simp)
    simp only [List.map_cons, List.nodup_cons] at hnd
    have hrest : dedupByKeyAux key (key x :: seen) xs = xs := by
      refine ih (key x :: seen) hnd.2 ?_
      intro k hk
      simp only [List.mem_cons]
      rintro (rfl | hks)
      · exact hnd.1 hk
      · exact hdisj k (List.mem_cons_of_mem _ hk) hks
    simp [dedupByKeyAux, hx, hrest]

theorem dedupByKey_eq_self (l : List α) (h : (l.map key).Nodup) :
    dedupByKey key l = l :=
  dedupByKeyAux_eq_self key l [] h (by simp)

end DedupLemmas

section SelLemmas

variable (s : Store) (owner : Nat)

theorem tagSel_sublist (b : Bool) : s.tagSel owner b <+ s.tags := by
  cases b with
  | false => exact List.filter_sublist s.tags
  | true => exact (List.filter_sublist _).trans (List.filter_sublist s.tags)

theorem mem_tagSel_false {t : Tag} :
    t ∈ s.tagSel owner false ↔ t ∈ s.tags ∧ t.user = owner := by
  simp [Store.tagSel, List.mem_filter]

theorem mem_tagSel_true {t : Tag} :
    t ∈ s.tagSel owner true ↔
      t ∈ s.tags ∧ t.user = owner ∧
        ∃ r ∈ s.recipes, r.user = owner ∧ t.id ∈ r.tags := by
  simp only [Store.tagSel, if_pos, List.mem_filter, List.any_eq_true,
    List.contains, beq_iff_eq, Bool.and_eq_true, List.elem_eq_mem,
    decide_eq_true_eq]
  tauto

theorem ingredientSel_sublist (b : Bool) :
    s.ingredientSel owner b <+ s.ingredients := by
  cases b with
  | false => exact List.filter_sublist s.ingredients
  | true => exact (List.filter_sublist _).trans (List.filter_sublist s.ingredients)

theorem mem_ingredientSel_false {i : Ingredient} :
    i ∈ s.ingredientSel owner false ↔ i ∈ s.ingredients ∧ i.user = owner := by
  simp [Store.ingredientSel, List.mem_filter]

theorem mem_ingredientSel_true {i : Ingredient} :
    i ∈ s.ingredientSel owner true ↔
      i ∈ s.ingredients ∧ i.user = owner ∧
        ∃ r ∈ s.recipes, r.user = owner ∧ i.id ∈ r.ingredients := by
  simp only [Store.ingredientSel, if_pos, List.mem_filter, List.any_eq_true,
    List.contains, beq_iff_eq, Bool.and_eq_true, List.elem_eq_mem,
    decide_eq_true_eq]
  tauto

theorem listTags_sublist_sorted (b : Bool) :
    s.listTags owner b <+ List.insertionSort tagGE (s.tagSel owner b) :=
  dedupByKey_sublist Tag.id _

theorem mem_listTags_mem_sel {t : Tag} (b : Bool)
    (h : t ∈ s.listTags owner b) : t ∈ s.tagSel owner b :=
  (List.perm_insertionSort tagGE (s.tagSel owner b)).mem_iff.mp
    ((listTags_sublist_sorted s owner b).mem h)

theorem listIngredients_sublist_sorted (b : Bool) :
    s.listIngredients owner b <+
      List.insertionSort ingGE (s.ingredientSel owner b) :=
  dedupByKey_sublist Ingredient.id _

theorem mem_listIngredients_mem_sel {i : Ingredient} (b : Bool)
    (h : i ∈ s.listIngredients owner b) : i ∈ s.ingredientSel owner b :=
  (List.perm_insertionSort ingGE (s.ingredientSel owner b)).mem_iff.mp
    ((listIngredients_sublist_sorted s owner b).mem h)

theorem listTags_perm_sel (b : Bool) (h : (s.tags.map Tag.id).Nodup) :
    List.Perm (s.listTags owner b) (s.tagSel owner b) := by
  have hsel : ((s.tagSel owner b).map Tag.id).Nodup :=
    h.sublist ((tagSel_sublist s owner b).map Tag.id)
  have hsorted :
      ((List.insertionSort tagGE (s.tagSel owner b)).map Tag.id).Nodup :=
    (((List.perm_insertionSort tagGE (s.tagSel owner b)).map Tag.id).nodup_iff).mpr hsel
  unfold Store.listTags
  rw [dedupByKey_eq_self Tag.id _ hsorted]
  exact List.perm_insertionSort tagGE _

theorem listIngredients_perm_sel (b : Bool)
    (h : (s.ingredients.map Ingredient.id).Nodup) :
    List.Perm (s.listIngredients owner b) (s.ingredientSel owner b) := by
  have hsel : ((s.ingredientSel owner b).map Ingredient.id).Nodup :=
    h.sublist ((ingredientSel_sublist s owner b).map Ingredient.id)
  have hsorted :
      ((List.insertionSort ingGE (s.ingredientSel owner b)).map Ingredient.id).Nodup :=
    (((List.perm_insertionSort ingGE (s.ingredientSel owner b)).map
        Ingredient.id).nodup_iff).mpr hsel
  unfold Store.listIngredients
  rw [dedupByKey_eq_self Ingredient.id _ hsorted]
  exact List.perm_insertionSort ingGE _

end SelLemmas

section NotFoundLemmas

theorem find?_eq_some_of_unique {α : Type} {p : α → Bool} {l : List α} {x : α}
    (h : x ∈ l) (hp : p x = true) (hu : ∀ y ∈ l, p y = true → y = x) :
    l.find? p = some x := by
  induction l with
  | nil => simp at h
  | cons y ys ih =>
    rcases List.mem_cons.mp h with rfl | hmem
    · simp [List.find?, hp]
    · by_cases hy : p y = true
      · have := hu y (List.mem_cons_self y ys) hy
        subst this
        simp [List.find?, hp]
      · simp only [List.find?]
        rw [Bool.not_eq_true] at hy
        rw [hy]
        exact ih hmem fun z hz hpz => hu z (List.mem_cons_of_mem y hz) hpz

variable (s : Store) (owner eid : Nat)

theorem getTag_eq_none (h : ∀ x ∈ s.tags, x.id = eid → x.user ≠ owner) :
    s.getTag owner eid = none := by
  refine List.find?_eq_none.mpr fun x hx hpx => ?_
  simp only [Bool.and_eq_true, beq_iff_eq] at hpx
  exact h x hx hpx.1 hpx.2

theorem updateTag_eq_none (h : ∀ x ∈ s.tags, x.id = eid → x.user ≠ owner)
    (n : String) : s.updateTag owner eid n = none := by
  simp [Store.updateTag, getTag_eq_none s owner eid h]

theorem deleteTag_eq_none (h : ∀ x ∈ s.tags, x.id = eid → x.user ≠ owner) :
    s.deleteTag owner eid = none := by
  have hany : s.tags.any (fun t => t.id == eid && t.user == owner) = false := by
    rw [List.any_eq_false]
    intro x hx
    simp only [Bool.and_eq_true, beq_iff_eq, not_and]
    exact h x hx
  simp [Store.deleteTag, hany]

theorem getIngredient_eq_none
    (h : ∀ x ∈ s.ingredients, x.id = eid → x.user ≠ owner) :
    s.getIngredient owner eid = none := by
  refine List.find?_eq_none.mpr fun x hx hpx => ?_
  simp only [Bool.and_eq_true, beq_iff_eq] at hpx
  exact h x hx hpx.1 hpx.2

theorem updateIngredient_eq_none
    (h : ∀ x ∈ s.ingredients, x.id = eid → x.user ≠ owner) (n : String) :
    s.updateIngredient owner eid n = none := by
  simp [Store.updateIngredient, getIngredient_eq_none s owner eid h]

theorem deleteIngredient_eq_none
    (h : ∀ x ∈ s.ingredients, x.id = eid → x.user ≠ owner) :
    s.deleteIngredient owner eid = none := by
  have hany : s.ingredients.any (fun i => i.id == eid && i.user == owner) = false := by
    rw [List.any_eq_false]
    intro x hx
    simp only [Bool.and_eq_true, beq_iff_eq, not_and]
    exact h x hx
  simp [Store.deleteIngredient, hany]

theorem getRecipe_eq_none (h : ∀ x ∈ s.recipes, x.id = eid → x.user ≠ owner) :
    s.getRecipe owner eid = none := by
  refine List.find?_eq_none.mpr fun x hx hpx => ?_
  simp only [Bool.and_eq_true, beq_iff_eq] at hpx
  exact h x hx hpx.1 hpx.2

theorem updateRecipe_eq_none (h : ∀ x ∈ s.recipes, x.id = eid → x.user ≠ owner)
    (p : RecipePatch) : s.updateRecipe owner eid p = none := by
  simp [Store.updateRecipe, getRecipe_eq_none s owner eid h]

theorem deleteRecipe_eq_none (h : ∀ x ∈ s.recipes, x.id = eid → x.user ≠ owner) :
    s.deleteRecipe owner eid = none := by
  have hany : s.recipes.any (fun r => r.id == eid && r.user == owner) = false := by
    rw [List.any_eq_false]
    intro x hx
    simp only [Bool.and_eq_true, beq_iff_eq, not_and]
    exact h x hx
  simp [Store.deleteRecipe, hany]

end NotFoundLemmas

theorem mem_listRecipes {s : Store} {owner : Nat} {r : Recipe} :
    r ∈ s.listRecipes owner ↔ r ∈ s.recipes ∧ r.user = owner := by
  rw [Store.listRecipes, List.mem_insertionSort, List.mem_filter, beq_iff_eq]

theorem mem_listTags_owned {s : Store} {owner : Nat} {b : Bool} {t : Tag}
    (h : t ∈ s.listTags owner b) : t ∈ s.tags ∧ t.user = owner := by
  have hsel := mem_listTags_mem_sel s owner b h
  cases b with
  | false => exact (mem_tagSel_false s owner).mp hsel
  | true =>
    have := (mem_tagSel_true s owner).mp hsel
    exact ⟨this.1, this.2.1⟩

theorem mem_listIngredients_owned {s : Store} {owner : Nat} {b : Bool}
    {i : Ingredient} (h : i ∈ s.listIngredients owner b) :
    i ∈ s.ingredients ∧ i.user = owner := by
  have hsel := mem_listIngredients_mem_sel s owner b h
  cases b with
  | false => exact (mem_ingredientSel_false s owner).mp hsel
  | true =>
    have := (mem_ingredientSel_true s owner).mp hsel
    exact ⟨this.1, this.2.1⟩

/-- A concrete well-formed store used to instantiate the theorems: two
users (1 and 2), tags, ingredients and recipes for both. -/
def wStore : Store :=
  ⟨[⟨1, 1, "Breakfast"⟩, ⟨2, 1, "Lunch"⟩, ⟨3, 2, "Hello"⟩],
   [⟨4, 1, "Apples"⟩, ⟨5, 1, "Turkey"⟩, ⟨6, 2, "Salt"⟩],
   [⟨7, 1, "Green Eggs", 10, 555, [1], [4]⟩, ⟨8, 2, "Soup", 5, 200, [3], [6]⟩]⟩

/-- C1: for distinct users U1 ≠ U2 and any Tag, Ingredient or Recipe owned
by U1, operations performed as U2 never return or modify that entity:
listings return only entities owned by the caller, and id-addressed get,
update and delete of another user's entity yield NotFound (`none`), never
the entity's data. -/
theorem C1_cross_tenant_isolation (s : Store) (u1 u2 : Nat)
    (hne : u1 ≠ u2) (hwf : s.WF) :
    (∀ t ∈ s.tags, t.user = u1 →
      (∀ b, t ∉ s.listTags u2 b) ∧ s.getTag u2 t.id = none ∧
        (∀ n, s.updateTag u2 t.id n = none) ∧ s.deleteTag u2 t.id = none) ∧
    (∀ i ∈ s.ingredients, i.user = u1 →
      (∀ b, i ∉ s.listIngredients u2 b) ∧ s.getIngredient u2 i.id = none ∧
        (∀ n, s.updateIngredient u2 i.id n = none) ∧
          s.deleteIngredient u2 i.id = none) ∧
    (∀ r ∈ s.recipes, r.user = u1 →
      r ∉ s.listRecipes u2 ∧ s.getRecipe u2 r.id = none ∧
        (∀ p, s.updateRecipe u2 r.id p = none) ∧ s.deleteRecipe u2 r.id = none) := by
  obtain ⟨hwt, hwi, hwr⟩ := hwf
  refine ⟨?_, ?_, ?_⟩
  · intro t ht hu
    have honly : ∀ x ∈ s.tags, x.id = t.id → x.user ≠ u2 := by
      intro x hx hid
      have : x = t := List.inj_on_of_nodup_map hwt hx ht hid
      subst this
      rw [hu]
      exact hne
    refine ⟨?_, getTag_eq_none s u2 t.id honly,
      updateTag_eq_none s u2 t.id honly, deleteTag_eq_none s u2 t.id honly⟩
    intro b hmem
    exact hne (hu ▸ (mem_listTags_owned hmem).2)
  · intro i hi hu
    have honly : ∀ x ∈ s.ingredients, x.id = i.id → x.user ≠ u2 := by
      intro x hx hid
      have : x = i := List.inj_on_of_nodup_map hwi hx hi hid
      subst this
      rw [hu]
      exact hne
    refine ⟨?_, getIngredient_eq_none s u2 i.id honly,
      updateIngredient_eq_none s u2 i.id honly,
      deleteIngredient_eq_none s u2 i.id honly⟩
    intro b hmem
    exact hne (hu ▸ (mem_listIngredients_owned hmem).2)
  · intro r hr hu
    have honly : ∀ x ∈ s.recipes, x.id = r.id → x.user ≠ u2 := by
      intro x hx hid
      have : x = r := List.inj_on_of_nodup_map hwr hx hr hid
      subst this
      rw [hu]
      exact hne
    refine ⟨?_, getRecipe_eq_none s u2 r.id honly,
      updateRecipe_eq_none s u2 r.id honly, deleteRecipe_eq_none s u2 r.id honly⟩
    intro hmem
    exact hne (hu ▸ (mem_listRecipes.mp hmem).2)

/-- C1 witness: in the concrete store, user 2 cannot read, list, update or
delete user 1's tag with id 1. -/
theorem C1_witness :
    wStore.getTag 2 1 = none ∧ (∀ n, wStore.updateTag 2 1 n = none) ∧
      wStore.deleteTag 2 1 = none ∧
      ∀ b, (⟨1, 1, "Breakfast"⟩ : Tag) ∉ wStore.listTags 2 b := by
  have h := (C1_cross_tenant_isolation wStore 1 2 (by decide) (by decide)).1
    ⟨1, 1, "Breakfast"⟩ (by decide) rfl
  exact ⟨h.2.1, h.2.2.1, h.2.2.2, h.1⟩

/-- C4: get, update and delete fail with the same NotFound result (`none`)
whether no entity with the id exists or it exists with a different owner:
whenever no row with the requested id is owned by the caller, all
id-addressed operations on all three entity types uniformly return `none`
(the model's only failure result, so no distinct "forbidden" outcome ever
arises). -/
theorem C4_uniform_not_found (s : Store) (owner eid : Nat)
    (htag : ∀ t ∈ s.tags, t.id = eid → t.user ≠ owner)
    (hing : ∀ i ∈ s.ingredients, i.id = eid → i.user ≠ owner)
    (hrec : ∀ r ∈ s.recipes, r.id = eid → r.user ≠ owner) :
    s.getTag owner eid = none ∧ (∀ n, s.updateTag owner eid n = none) ∧
      s.deleteTag owner eid = none ∧
      s.getIngredient owner eid = none ∧
      (∀ n, s.updateIngredient owner eid n = none) ∧
      s.deleteIngredient owner eid = none ∧
      s.getRecipe owner eid = none ∧
      (∀ p, s.updateRecipe owner eid p = none) ∧
      s.deleteRecipe owner eid = none :=
  ⟨getTag_eq_none s owner eid htag, updateTag_eq_none s owner eid htag,
    deleteTag_eq_none s owner eid htag,
    getIngredient_eq_none s owner eid hing,
    updateIngredient_eq_none s owner eid hing,
    deleteIngredient_eq_none s owner eid hing,
    getRecipe_eq_none s owner eid hrec, updateRecipe_eq_none s owner eid hrec,
    deleteRecipe_eq_none s owner eid hrec⟩

/-- C4 witness: in the concrete store, id 3 exists as a tag but is owned by
user 2, and no ingredient or recipe with id 3 exists; all operations as
user 1 on id 3 yield `none`. -/
theorem C4_witness :
    wStore.getTag 1 3 = none ∧ (∀ n, wStore.updateTag 1 3 n = none) ∧
      wStore.deleteTag 1 3 = none ∧
      wStore.getIngredient 1 3 = none ∧
      (∀ n, wStore.updateIngredient 1 3 n = none) ∧
      wStore.deleteIngredient 1 3 = none ∧
      wStore.getRecipe 1 3 = none ∧
      (∀ p, wStore.updateRecipe 1 3 p = none) ∧
      wStore.deleteRecipe 1 3 = none :=
  C4_uniform_not_found wStore 1 3 (by decide) (by decide) (by decide)

/-- C2: for every owner, `list(owner, assigned_only := true)` returns
exactly the Tags (resp. Ingredients) owned by the owner that appear in the
association set of at least one Recipe owned by that same owner: every such
assigned entity is in the result, and nothing else is — in particular no
unassigned entity and no entity assigned only to another user's recipe. -/
theorem C2_assigned_only_filter (s : Store) (owner : Nat) (hwf : s.WF) :
    (∀ t : Tag, t ∈ s.listTags owner true ↔
      t ∈ s.tags ∧ t.user = owner ∧
        ∃ r ∈ s.recipes, r.user = owner ∧ t.id ∈ r.tags) ∧
    (∀ i : Ingredient, i ∈ s.listIngredients owner true ↔
      i ∈ s.ingredients ∧ i.user = owner ∧
        ∃ r ∈ s.recipes, r.user = owner ∧ i.id ∈ r.ingredients) := by
  refine ⟨fun t => ?_, fun i => ?_⟩
  · rw [(listTags_perm_sel s owner true hwf.1).mem_iff]
    exact mem_tagSel_true s owner
  · rw [(listIngredients_perm_sel s owner true hwf.2.1).mem_iff]
    exact mem_ingredientSel_true s owner

/-- C2 witness: in the concrete store, user 1's tag "Breakfast" (id 1,
linked to recipe 7) satisfies the assigned-only membership equivalence. -/
theorem C2_witness :
    (⟨1, 1, "Breakfast"⟩ : Tag) ∈ wStore.listTags 1 true ↔
      (⟨1, 1, "Breakfast"⟩ : Tag) ∈ wStore.tags ∧
        (⟨1, 1, "Breakfast"⟩ : Tag).user = 1 ∧
        ∃ r ∈ wStore.recipes, r.user = 1 ∧
          (⟨1, 1, "Breakfast"⟩ : Tag).id ∈ r.tags :=
  (C2_assigned_only_filter wStore 1 (by decide)).1 ⟨1, 1, "Breakfast"⟩

/-- C3: the assigned-only listings contain no duplicate entity: distinct
result rows have distinct ids, and any entity in the result appears exactly
once, even when linked to several of the owner's recipes. -/
theorem C3_no_duplicates (s : Store) (owner : Nat) :
    ((s.listTags owner true).map Tag.id).Nodup ∧
      (∀ t ∈ s.listTags owner true, (s.listTags owner true).count t = 1) ∧
      ((s.listIngredients owner true).map Ingredient.id).Nodup ∧
      ∀ i ∈ s.listIngredients owner true,
        (s.listIngredients owner true).count i = 1 := by
  have ht : ((s.listTags owner true).map Tag.id).Nodup :=
    dedupByKey_key_nodup Tag.id (List.insertionSort tagGE (s.tagSel owner true))
  have hi : ((s.listIngredients owner true).map Ingredient.id).Nodup :=
    dedupByKey_key_nodup Ingredient.id
      (List.insertionSort ingGE (s.ingredientSel owner true))
  exact ⟨ht, fun t hmem => List.count_eq_one_of_mem (ht.of_map _) hmem, hi,
    fun i hmem => List.count_eq_one_of_mem (hi.of_map _) hmem⟩

/-- C3 witness: in the concrete store, user 1's assigned-only tag listing
has pairwise-distinct ids and lists the assigned tag exactly once. -/
theorem C3_witness :
    ((wStore.listTags 1 true).map Tag.id).Nodup ∧
      (wStore.listTags 1 true).count ⟨1, 1, "Breakfast"⟩ = 1 := by
  have h := C3_no_duplicates wStore 1
  exact ⟨h.1, h.2.1 ⟨1, 1, "Breakfast"⟩ (by decide)⟩

/-- C7: the Tag and Ingredient list operations return their rows ordered by
name descending (each row's name is greater-or-equal, in the collation
order, than every later row's), and the Recipe list operation returns rows
ordered by most-recent id first. -/
theorem C7_default_ordering (s : Store) (owner : Nat) :
    (∀ b, (s.listTags owner b).Pairwise
      (fun a c : Tag => strLe c.name a.name)) ∧
    (∀ b, (s.listIngredients owner b).Pairwise
      (fun a c : Ingredient => strLe c.name a.name)) ∧
    (s.listRecipes owner).Pairwise (fun a c : Recipe => c.id ≤ a.id) := by
  refine ⟨fun b => ?_, fun b => ?_, ?_⟩
  · exact List.Pairwise.sublist (listTags_sublist_sorted s owner b)
      (List.sorted_insertionSort tagGE (s.tagSel owner b))
  · exact List.Pairwise.sublist (listIngredients_sublist_sorted s owner b)
      (List.sorted_insertionSort ingGE (s.ingredientSel owner b))
  · exact List.sorted_insertionSort recGE
      (s.recipes.filter (fun r => r.user == owner))

/-- C8: a partial update of a Tag (resp. Ingredient) that supplies only a
new name changes only that entity's name: the operation succeeds and
returns the entity with the new name and unchanged id and owner,
re-fetching by id reflects the new name, and the other tables, the table
size, and every other row of the same table are unchanged. -/
theorem C8_partial_update_frame (s : Store) (owner : Nat) (hwf : s.WF) :
    (∀ t ∈ s.tags, t.user = owner → ∀ newName,
      ∃ s', s.updateTag owner t.id newName =
          some ({ t with name := newName }, s') ∧
        s'.getTag owner t.id = some { t with name := newName } ∧
        s'.ingredients = s.ingredients ∧ s'.recipes = s.recipes ∧
        s'.tags.length = s.tags.length ∧
        (∀ u ∈ s.tags, u.id ≠ t.id → u ∈ s'.tags) ∧
        (∀ u ∈ s'.tags, u.id ≠ t.id → u ∈ s.tags)) ∧
    (∀ i ∈ s.ingredients, i.user = owner → ∀ newName,
      ∃ s', s.updateIngredient owner i.id newName =
          some ({ i with name := newName }, s') ∧
        s'.getIngredient owner i.id = some { i with name := newName } ∧
        s'.tags = s.tags ∧ s'.recipes = s.recipes ∧
        s'.ingredients.length = s.ingredients.length ∧
        (∀ u ∈ s.ingredients, u.id ≠ i.id → u ∈ s'.ingredients) ∧
        (∀ u ∈ s'.ingredients, u.id ≠ i.id → u ∈ s.ingredients)) := by
  obtain ⟨hwt, hwi, _⟩ := hwf
  constructor
  · intro t ht hu newName
    have hfind : s.getTag owner t.id = some t := by
      refine find?_eq_some_of_unique ht (by simp [hu]) ?_
      intro y hy hpy
      simp only [Bool.and_eq_true, beq_iff_eq] at hpy
      exact List.inj_on_of_nodup_map hwt hy ht hpy.1
    refine ⟨{ s with tags := s.tags.map fun u =>
        if u.id == t.id && u.user == owner then { t with name := newName }
        else u }, ?_, ?_, rfl, rfl, by simp, ?_, ?_⟩
    · simp only [Store.updateTag, hfind]
    · refine find?_eq_some_of_unique ?_ (by simp [hu]) ?_
      · exact List.mem_map.mpr ⟨t, ht, by simp [hu]⟩
      · intro y hy hpy
        simp only [Bool.and_eq_true, beq_iff_eq] at hpy
        obtain ⟨u, hu2, rfl1⟩ := List.mem_map.mp hy
        by_cases hc : (u.id == t.id && u.user == owner) = true
        · rw [if_pos hc] at rfl1
          exact rfl1.symm
        · rw [if_neg hc] at rfl1
          subst rfl1
          simp only [Bool.and_eq_true, beq_iff_eq] at hc
          have := List.inj_on_of_nodup_map hwt hu2 ht hpy.1
          subst this
          exact absurd ⟨rfl, hpy.2⟩ hc
    · intro u hu2 hne
      refine List.mem_map.mpr ⟨u, hu2, ?_⟩
      have : (u.id == t.id) = false := by
        simpa using hne
      simp [this]
    · intro u hu2 hne
      obtain ⟨v, hv, rfl1⟩ := List.mem_map.mp hu2
      by_cases hc : (v.id == t.id && v.user == owner) = true
      · rw [if_pos hc] at rfl1
        have : u.id = t.id := by rw [← rfl1]
        exact absurd this hne
      · rw [if_neg hc] at rfl1
        exact rfl1 ▸ hv
  · intro i hi hu newName
    have hfind : s.getIngredient owner i.id = some i := by
      refine find?_eq_some_of_unique hi (by simp [hu]) ?_
      intro y hy hpy
      simp only [Bool.and_eq_true, beq_iff_eq] at hpy
      exact List.inj_on_of_nodup_map hwi hy hi hpy.1
    refine ⟨{ s with ingredients := s.ingredients.map fun u =>
        if u.id == i.id && u.user == owner then { i with name := newName }
        else u }, ?_, ?_, rfl, rfl, by simp, ?_, ?_⟩
    · simp only [Store.updateIngredient, hfind]
    · refine find?_eq_some_of_unique ?_ (by simp [hu]) ?_
      · exact List.mem_map.mpr ⟨i, hi, by simp [hu]⟩
      · intro y hy hpy
        simp only [Bool.and_eq_true, beq_iff_eq] at hpy
        obtain ⟨u, hu2, rfl1⟩ := List.mem_map.mp hy
        by_cases hc : (u.id == i.id && u.user == owner) = true
        · rw [if_pos hc] at rfl1
          exact rfl1.symm
        · rw [if_neg hc] at rfl1
          subst rfl1
          simp only [Bool.and_eq_true, beq_iff_eq] at hc
          have := List.inj_on_of_nodup_map hwi hu2 hi hpy.1
          subst this
          exact absurd ⟨rfl, hpy.2⟩ hc
    · intro u hu2 hne
      refine List.mem_map.mpr ⟨u, hu2, ?_⟩
      have : (u.id == i.id) = false := by
        simpa using hne
      simp [this]
    · intro u hu2 hne
      obtain ⟨v, hv, rfl1⟩ := List.mem_map.mp hu2
      by_cases hc : (v.id == i.id && v.user == owner) = true
      · rw [if_pos hc] at rfl1
        have : u.id = i.id := by rw [← rfl1]
        exact absurd this hne
      · rw [if_neg hc] at rfl1
        exact rfl1 ▸ hv

/-- C8 witness: renaming user 1's tag with id 1 to "Brunch" in the concrete
store changes only that row's name and leaves everything else unchanged. -/
theorem C8_witness :
    ∃ s', wStore.updateTag 1 1 "Brunch" = some (⟨1, 1, "Brunch"⟩, s') ∧
      s'.getTag 1 1 = some ⟨1, 1, "Brunch"⟩ ∧
      s'.ingredients = wStore.ingredients ∧ s'.recipes = wStore.recipes ∧
      s'.tags.length = wStore.tags.length ∧
      (∀ u ∈ wStore.tags, u.id ≠ 1 → u ∈ s'.tags) ∧
      (∀ u ∈ s'.tags, u.id ≠ 1 → u ∈ wStore.tags) :=
  (C8_partial_update_frame wStore 1 (by decide)).1 ⟨1, 1, "Breakfast"⟩
    (by decide) rfl "Brunch"

/-- C9: deleting a Recipe removes that recipe row (and with it its
tag/ingredient association rows) only: the Tag and Ingredient tables are
unchanged — so every entity the recipe referenced is still present and
queryable — every other recipe row survives, and nothing new appears. -/
theorem C9_delete_recipe_frame (s : Store) (owner : Nat) :
    ∀ r ∈ s.recipes, r.user = owner →
      ∃ s', s.deleteRecipe owner r.id = some s' ∧
        s'.tags = s.tags ∧ s'.ingredients = s.ingredients ∧
        r ∉ s'.recipes ∧
        (∀ q ∈ s.recipes, q.id ≠ r.id → q ∈ s'.recipes) ∧
        (∀ q ∈ s'.recipes, q ∈ s.recipes) ∧
        (∀ u tid, s'.getTag u tid = s.getTag u tid) ∧
        (∀ u iid, s'.getIngredient u iid = s.getIngredient u iid) := by
  intro r hr hu
  have hany : s.recipes.any (fun q => q.id == r.id && q.user == owner) = true :=
    List.any_eq_true.mpr ⟨r, hr, by simp [hu]⟩
  refine ⟨{ s with
      recipes := s.recipes.filter fun q => !(q.id == r.id && q.user == owner) },
    by simp [Store.deleteRecipe, hany], rfl, rfl, ?_, ?_, ?_, fun u tid => rfl,
    fun u iid => rfl⟩
  · intro hmem
    have := (List.mem_filter.mp hmem).2
    simp [hu] at this
  · intro q hq hne
    refine List.mem_filter.mpr ⟨hq, ?_⟩
    have : (q.id == r.id) = false := by simpa using hne
    simp [this]
  · intro q hq
    exact List.mem_of_mem_filter hq

/-- C9 witness: deleting user 1's recipe with id 7 from the concrete store
leaves the tag and ingredient tables (including the referenced tag 1 and
ingredient 4) unchanged and removes only that recipe row. -/
theorem C9_witness :
    ∃ s', wStore.deleteRecipe 1 7 = some s' ∧
      s'.tags = wStore.tags ∧ s'.ingredients = wStore.ingredients ∧
      (⟨7, 1, "Green Eggs", 10, 555, [1], [4]⟩ : Recipe) ∉ s'.recipes ∧
      (∀ q ∈ wStore.recipes, q.id ≠ 7 → q ∈ s'.recipes) ∧
      (∀ q ∈ s'.recipes, q ∈ wStore.recipes) ∧
      (∀ u tid, s'.getTag u tid = wStore.getTag u tid) ∧
      (∀ u iid, s'.getIngredient u iid = wStore.getIngredient u iid) :=
  C9_delete_recipe_frame wStore 1 ⟨7, 1, "Green Eggs", 10, 555, [1], [4]⟩
    (by decide) rfl

section GetOrCreateLemmas

theorem tagRowCount_eq_of_tags {s1 s2 : Store} (o : Nat) (n : String)
    (h : s1.tags = s2.tags) : s1.tagRowCount o n = s2.tagRowCount o n := by
  unfold Store.tagRowCount
  rw [h]

theorem ingredientRowCount_eq_of_ingredients {s1 s2 : Store} (o : Nat)
    (n : String) (h : s1.ingredients = s2.ingredients) :
    s1.ingredientRowCount o n = s2.ingredientRowCount o n := by
  unfold Store.ingredientRowCount
  rw [h]

variable (s : Store) (o : Nat) (n : String)

theorem getOrCreateTag_ingredients :
    (s.getOrCreateTag o n).2.ingredients = s.ingredients := by
  unfold Store.getOrCreateTag
  cases s.tags.find? (fun t => t.user == o && t.name == n) <;> rfl

theorem getOrCreateTag_recipes :
    (s.getOrCreateTag o n).2.recipes = s.recipes := by
  unfold Store.getOrCreateTag
  cases s.tags.find? (fun t => t.user == o && t.name == n) <;> rfl

theorem getOrCreateTag_tags_ext :
    ∃ new, (s.getOrCreateTag o n).2.tags = s.tags ++ new := by
  unfold Store.getOrCreateTag
  cases s.tags.find? (fun t => t.user == o && t.name == n) with
  | none => exact ⟨[⟨s.freshId, o, n⟩], rfl⟩
  | some t => exact ⟨[], by simp⟩

theorem getOrCreateTag_found :
    (s.getOrCreateTag o n).1 ∈ (s.getOrCreateTag o n).2.tags ∧
      (s.getOrCreateTag o n).1.user = o ∧ (s.getOrCreateTag o n).1.name = n := by
  unfold Store.getOrCreateTag
  cases hfind : s.tags.find? (fun t => t.user == o && t.name == n) with
  | none => simp
  | some t =>
    have hp := List.find?_some hfind
    simp only [Bool.and_eq_true, beq_iff_eq] at hp
    exact ⟨List.mem_of_find?_eq_some hfind, hp.1, hp.2⟩

theorem getOrCreateTag_count_self :
    (s.getOrCreateTag o n).2.tagRowCount o n = max (s.tagRowCount o n) 1 := by
  unfold Store.getOrCreateTag
  cases hfind : s.tags.find? (fun t => t.user == o && t.name == n) with
  | none =>
    have hnone : ∀ t ∈ s.tags, ¬(t.user == o && t.name == n) = true :=
      List.find?_eq_none.mp hfind
    have hzero : s.tagRowCount o n = 0 := by
      unfold Store.tagRowCount
      rw [List.filter_eq_nil_iff.mpr hnone]
      rfl
    rw [hzero]
    unfold Store.tagRowCount
    simp [List.filter_append]
    intro a ha hau
    have := hnone a ha
    simp only [Bool.and_eq_true, beq_iff_eq, not_and] at this
    exact this hau
  | some t =>
    have hmem : t ∈ s.tags := List.mem_of_find?_eq_some hfind
    have hp := List.find?_some hfind
    have hpos : 0 < s.tagRowCount o n := by
      unfold Store.tagRowCount
      exact List.length_pos_of_mem (List.mem_filter.mpr ⟨hmem, hp⟩)
    simp only []
    omega

theorem getOrCreateTag_count_other (o' : Nat) (n' : String)
    (h : o' ≠ o ∨ n' ≠ n) :
    (s.getOrCreateTag o n).2.tagRowCount o' n' = s.tagRowCount o' n' := by
  unfold Store.getOrCreateTag
  cases s.tags.find? (fun t => t.user == o && t.name == n) with
  | some t => rfl
  | none =>
    unfold Store.tagRowCount
    have hnew : ((⟨s.freshId, o, n⟩ : Tag).user == o' &&
        (⟨s.freshId, o, n⟩ : Tag).name == n') = false := by
      rcases h with h | h
      · simp [Ne.symm h]
      · simp [Ne.symm h]
    simp [List.filter_append, hnew]

theorem getOrCreateIngredient_tags :
    (s.getOrCreateIngredient o n).2.tags = s.tags := by
  unfold Store.getOrCreateIngredient
  cases s.ingredients.find? (fun i => i.user == o && i.name == n) <;> rfl

theorem getOrCreateIngredient_recipes :
    (s.getOrCreateIngredient o n).2.recipes = s.recipes := by
  unfold Store.getOrCreateIngredient
  cases s.ingredients.find? (fun i => i.user == o && i.name == n) <;> rfl

theorem getOrCreateIngredient_ingredients_ext :
    ∃ new, (s.getOrCreateIngredient o n).2.ingredients = s.ingredients ++ new := by
  unfold Store.getOrCreateIngredient
  cases s.ingredients.find? (fun i => i.user == o && i.name == n) with
  | none => exact ⟨[⟨s.freshId, o, n⟩], rfl⟩
  | some i => exact ⟨[], by simp⟩

theorem getOrCreateIngredient_found :
    (s.getOrCreateIngredient o n).1 ∈ (s.getOrCreateIngredient o n).2.ingredients ∧
      (s.getOrCreateIngredient o n).1.user = o ∧
      (s.getOrCreateIngredient o n).1.name = n := by
  unfold Store.getOrCreateIngredient
  cases hfind : s.ingredients.find? (fun i => i.user == o && i.name == n) with
  | none => simp
  | some i =>
    have hp := List.find?_some hfind
    simp only [Bool.and_eq_true, beq_iff_eq] at hp
    exact ⟨List.mem_of_find?_eq_some hfind, hp.1, hp.2⟩

theorem getOrCreateIngredient_count_self :
    (s.getOrCreateIngredient o n).2.ingredientRowCount o n =
      max (s.ingredientRowCount o n) 1 := by
  unfold Store.getOrCreateIngredient
  cases hfind : s.ingredients.find? (fun i => i.user == o && i.name == n) with
  | none =>
    have hnone : ∀ i ∈ s.ingredients, ¬(i.user == o && i.name == n) = true :=
      List.find?_eq_none.mp hfind
    have hzero : s.ingredientRowCount o n = 0 := by
      unfold Store.ingredientRowCount
      rw [List.filter_eq_nil_iff.mpr hnone]
      rfl
    rw [hzero]
    unfold Store.ingredientRowCount
    simp [List.filter_append]
    intro a ha hau
    have := hnone a ha
    simp only [Bool.and_eq_true, beq_iff_eq, not_and] at this
    exact this hau
  | some i =>
    have hmem : i ∈ s.ingredients := List.mem_of_find?_eq_some hfind
    have hp := List.find?_some hfind
    have hpos : 0 < s.ingredientRowCount o n := by
      unfold Store.ingredientRowCount
      exact List.length_pos_of_mem (List.mem_filter.mpr ⟨hmem, hp⟩)
    simp only []
    omega

theorem getOrCreateIngredient_count_other (o' : Nat) (n' : String)
    (h : o' ≠ o ∨ n' ≠ n) :
    (s.getOrCreateIngredient o n).2.ingredientRowCount o' n' =
      s.ingredientRowCount o' n' := by
  unfold Store.getOrCreateIngredient
  cases s.ingredients.find? (fun i => i.user == o && i.name == n) with
  | some i => rfl
  | none =>
    unfold Store.ingredientRowCount
    have hnew : ((⟨s.freshId, o, n⟩ : Ingredient).user == o' &&
        (⟨s.freshId, o, n⟩ : Ingredient).name == n') = false := by
      rcases h with h | h
      · simp [Ne.symm h]
      · simp [Ne.symm h]
    simp [List.filter_append, hnew]

end GetOrCreateLemmas

section ResolveLemmas

theorem resolveTags_ingredients (o : Nat) :
    ∀ (ns : List String) (s : Store),
      (s.resolveTags o ns).2.ingredients = s.ingredients := by
  intro ns
  induction ns with
  | nil => intro s; rfl
  | cons m ms ih =>
    intro s
    show ((s.getOrCreateTag o m).2.resolveTags o ms).2.ingredients = s.ingredients
    rw [ih (s.getOrCreateTag o m).2]
    exact getOrCreateTag_ingredients s o m

theorem resolveTags_recipes (o : Nat) :
    ∀ (ns : List String) (s : Store),
      (s.resolveTags o ns).2.recipes = s.recipes := by
  intro ns
  induction ns with
  | nil => intro s; rfl
  | cons m ms ih =>
    intro s
    show ((s.getOrCreateTag o m).2.resolveTags o ms).2.recipes = s.recipes
    rw [ih (s.getOrCreateTag o m).2]
    exact getOrCreateTag_recipes s o m

theorem resolveTags_tags_ext (o : Nat) :
    ∀ (ns : List String) (s : Store),
      ∃ new, (s.resolveTags o ns).2.tags = s.tags ++ new := by
  intro ns
  induction ns with
  | nil =>
    intro s
    refine ⟨[], ?_⟩
    show s.tags = s.tags ++ []
    simp
  | cons m ms ih =>
    intro s
    obtain ⟨a, ha⟩ := getOrCreateTag_tags_ext s o m
    obtain ⟨b, hb⟩ := ih (s.getOrCreateTag o m).2
    refine ⟨a ++ b, ?_⟩
    show ((s.getOrCreateTag o m).2.resolveTags o ms).2.tags = s.tags ++ (a ++ b)
    rw [hb, ha, List.append_assoc]

theorem resolveTags_count_notmem (o : Nat) (n : String) :
    ∀ (ns : List String) (s : Store), n ∉ ns →
      (s.resolveTags o ns).2.tagRowCount o n = s.tagRowCount o n := by
  intro ns
  induction ns with
  | nil => intro s _; rfl
  | cons m ms ih =>
    intro s h
    have hnm : n ≠ m := fun he => h (he ▸ List.mem_cons_self m ms)
    have hms : n ∉ ms := fun he => h (List.mem_cons_of_mem m he)
    show ((s.getOrCreateTag o m).2.resolveTags o ms).2.tagRowCount o n = _
    rw [ih (s.getOrCreateTag o m).2 hms]
    exact getOrCreateTag_count_other s o m o n (Or.inr hnm)

theorem resolveTags_count_self (o : Nat) (n : String) :
    ∀ (ns : List String) (s : Store), n ∈ ns →
      (s.resolveTags o ns).2.tagRowCount o n = max (s.tagRowCount o n) 1 := by
  intro ns
  induction ns with
  | nil => intro s h; simp at h
  | cons m ms ih =>
    intro s h
    show ((s.getOrCreateTag o m).2.resolveTags o ms).2.tagRowCount o n = _
    by_cases hn : n ∈ ms
    · rw [ih (s.getOrCreateTag o m).2 hn]
      by_cases hnm : n = m
      · subst hnm
        rw [getOrCreateTag_count_self s o n, Nat.max_assoc, Nat.max_self]
      · rw [getOrCreateTag_count_other s o m o n (Or.inr hnm)]
    · have hnm : n = m := by
        rcases List.mem_cons.mp h with h1 | h1
        · exact h1
        · exact absurd h1 hn
      subst hnm
      rw [resolveTags_count_notmem o n ms (s.getOrCreateTag o n).2 hn]
      exact getOrCreateTag_count_self s o n

theorem resolveTags_count_other_owner (o o' : Nat) (n' : String) (h : o' ≠ o) :
    ∀ (ns : List String) (s : Store),
      (s.resolveTags o ns).2.tagRowCount o' n' = s.tagRowCount o' n' := by
  intro ns
  induction ns with
  | nil => intro s; rfl
  | cons m ms ih =>
    intro s
    show ((s.getOrCreateTag o m).2.resolveTags o ms).2.tagRowCount o' n' = _
    rw [ih (s.getOrCreateTag o m).2]
    exact getOrCreateTag_count_other s o m o' n' (Or.inl h)

theorem resolveTags_assoc (o : Nat) (n : String) :
    ∀ (ns : List String) (s : Store), n ∈ ns →
      ∃ t ∈ (s.resolveTags o ns).2.tags, t.user = o ∧ t.name = n ∧
        t.id ∈ (s.resolveTags o ns).1 := by
  intro ns
  induction ns with
  | nil => intro s h; simp at h
  | cons m ms ih =>
    intro s h
    by_cases hnm : n = m
    · subst hnm
      obtain ⟨hmem, hu, hn2⟩ := getOrCreateTag_found s o n
      obtain ⟨new, hnew⟩ := resolveTags_tags_ext o ms (s.getOrCreateTag o n).2
      refine ⟨(s.getOrCreateTag o n).1, ?_, hu, hn2, ?_⟩
      · show _ ∈ ((s.getOrCreateTag o n).2.resolveTags o ms).2.tags
        rw [hnew]
        exact List.mem_append_left _ hmem
      · show _ ∈ (s.getOrCreateTag o n).1.id ::
          ((s.getOrCreateTag o n).2.resolveTags o ms).1
        exact List.mem_cons_self _ _
    · have hn2 : n ∈ ms := by
        rcases List.mem_cons.mp h with h1 | h1
        · exact absurd h1 hnm
        · exact h1
      obtain ⟨t, hmem, hu, hname, hid⟩ := ih (s.getOrCreateTag o m).2 hn2
      exact ⟨t, hmem, hu, hname, List.mem_cons_of_mem _ hid⟩

theorem resolveIngredients_tags (o : Nat) :
    ∀ (ns : List String) (s : Store),
      (s.resolveIngredients o ns).2.tags = s.tags := by
  intro ns
  induction ns with
  | nil => intro s; rfl
  | cons m ms ih =>
    intro s
    show ((s.getOrCreateIngredient o m).2.resolveIngredients o ms).2.tags = s.tags
    rw [ih (s.getOrCreateIngredient o m).2]
    exact getOrCreateIngredient_tags s o m

theorem resolveIngredients_recipes (o : Nat) :
    ∀ (ns : List String) (s : Store),
      (s.resolveIngredients o ns).2.recipes = s.recipes := by
  intro ns
  induction ns with
  | nil => intro s; rfl
  | cons m ms ih =>
    intro s
    show ((s.getOrCreateIngredient o m).2.resolveIngredients o ms).2.recipes = s.recipes
    rw [ih (s.getOrCreateIngredient o m).2]
    exact getOrCreateIngredient_recipes s o m

theorem resolveIngredients_ingredients_ext (o : Nat) :
    ∀ (ns : List String) (s : Store),
      ∃ new, (s.resolveIngredients o ns).2.ingredients = s.ingredients ++ new := by
  intro ns
  induction ns with
  | nil =>
    intro s
    refine ⟨[], ?_⟩
    show s.ingredients = s.ingredients ++ []
    simp
  | cons m ms ih =>
    intro s
    obtain ⟨a, ha⟩ := getOrCreateIngredient_ingredients_ext s o m
    obtain ⟨b, hb⟩ := ih (s.getOrCreateIngredient o m).2
    refine ⟨a ++ b, ?_⟩
    show ((s.getOrCreateIngredient o m).2.resolveIngredients o ms).2.ingredients =
      s.ingredients ++ (a ++ b)
    rw [hb, ha, List.append_assoc]

theorem resolveIngredients_count_notmem (o : Nat) (n : String) :
    ∀ (ns : List String) (s : Store), n ∉ ns →
      (s.resolveIngredients o ns).2.ingredientRowCount o n =
        s.ingredientRowCount o n := by
  intro ns
  induction ns with
  | nil => intro s _; rfl
  | cons m ms ih =>
    intro s h
    have hnm : n ≠ m := fun he => h (he ▸ List.mem_cons_self m ms)
    have hms : n ∉ ms := fun he => h (List.mem_cons_of_mem m he)
    show ((s.getOrCreateIngredient o m).2.resolveIngredients o ms).2.ingredientRowCount o n = _
    rw [ih (s.getOrCreateIngredient o m).2 hms]
    exact getOrCreateIngredient_count_other s o m o n (Or.inr hnm)

theorem resolveIngredients_count_self (o : Nat) (n : String) :
    ∀ (ns : List String) (s : Store), n ∈ ns →
      (s.resolveIngredients o ns).2.ingredientRowCount o n =
        max (s.ingredientRowCount o n) 1 := by
  intro ns
  induction ns with
  | nil => intro s h; simp at h
  | cons m ms ih =>
    intro s h
    show ((s.getOrCreateIngredient o m).2.resolveIngredients o ms).2.ingredientRowCount o n = _
    by_cases hn : n ∈ ms
    · rw [ih (s.getOrCreateIngredient o m).2 hn]
      by_cases hnm : n = m
      · subst hnm
        rw [getOrCreateIngredient_count_self s o n, Nat.max_assoc, Nat.max_self]
      · rw [getOrCreateIngredient_count_other s o m o n (Or.inr hnm)]
    · have hnm : n = m := by
        rcases List.mem_cons.mp h with h1 | h1
        · exact h1
        · exact absurd h1 hn
      subst hnm
      rw [resolveIngredients_count_notmem o n ms (s.getOrCreateIngredient o n).2 hn]
      exact getOrCreateIngredient_count_self s o n

theorem resolveIngredients_count_other_owner (o o' : Nat) (n' : String)
    (h : o' ≠ o) :
    ∀ (ns : List String) (s : Store),
      (s.resolveIngredients o ns).2.ingredientRowCount o' n' =
        s.ingredientRowCount o' n' := by
  intro ns
  induction ns with
  | nil => intro s; rfl
  | cons m ms ih =>
    intro s
    show ((s.getOrCreateIngredient o m).2.resolveIngredients o ms).2.ingredientRowCount o' n' = _
    rw [ih (s.getOrCreateIngredient o m).2]
    exact getOrCreateIngredient_count_other s o m o' n' (Or.inl h)

theorem resolveIngredients_assoc (o : Nat) (n : String) :
    ∀ (ns : List String) (s : Store), n ∈ ns →
      ∃ i ∈ (s.resolveIngredients o ns).2.ingredients, i.user = o ∧
        i.name = n ∧ i.id ∈ (s.resolveIngredients o ns).1 := by
  intro ns
  induction ns with
  | nil => intro s h; simp at h
  | cons m ms ih =>
    intro s h
    by_cases hnm : n = m
    · subst hnm
      obtain ⟨hmem, hu, hn2⟩ := getOrCreateIngredient_found s o n
      obtain ⟨new, hnew⟩ :=
        resolveIngredients_ingredients_ext o ms (s.getOrCreateIngredient o n).2
      refine ⟨(s.getOrCreateIngredient o n).1, ?_, hu, hn2, ?_⟩
      · show _ ∈ ((s.getOrCreateIngredient o n).2.resolveIngredients o ms).2.ingredients
        rw [hnew]
        exact List.mem_append_left _ hmem
      · show _ ∈ (s.getOrCreateIngredient o n).1.id ::
          ((s.getOrCreateIngredient o n).2.resolveIngredients o ms).1
        exact List.mem_cons_self _ _
    · have hn2 : n ∈ ms := by
        rcases List.mem_cons.mp h with h1 | h1
        · exact absurd h1 hnm
        · exact h1
      obtain ⟨i, hmem, hu, hname, hid⟩ := ih (s.getOrCreateIngredient o m).2 hn2
      exact ⟨i, hmem, hu, hname, List.mem_cons_of_mem _ hid⟩

end ResolveLemmas

/-- The per-name get-or-create outcome C5 requires of a recipe write: if
this owner had at most one Tag row with the name (in particular when one
already existed), exactly one such row exists afterwards (the row was
reused, not duplicated); rows of other owners with the same name are
untouched (a different owner keeps, or later gets, a separately-owned
row); and the written recipe's association set references a Tag row of
this owner with this name. -/
def TagReuse (s : Store) (owner : Nat) (n : String) (r : Recipe)
    (s2 : Store) : Prop :=
  (s.tagRowCount owner n ≤ 1 → s2.tagRowCount owner n = 1) ∧
    (∀ o', o' ≠ owner → s2.tagRowCount o' n = s.tagRowCount o' n) ∧
    ∃ t ∈ s2.tags, t.user = owner ∧ t.name = n ∧ t.id ∈ r.tags

/-- The Ingredient counterpart of `TagReuse`. -/
def IngredientReuse (s : Store) (owner : Nat) (n : String) (r : Recipe)
    (s2 : Store) : Prop :=
  (s.ingredientRowCount owner n ≤ 1 → s2.ingredientRowCount owner n = 1) ∧
    (∀ o', o' ≠ owner → s2.ingredientRowCount o' n = s.ingredientRowCount o' n) ∧
    ∃ i ∈ s2.ingredients, i.user = owner ∧ i.name = n ∧ i.id ∈ r.ingredients

/-- C5: recipe create, and recipe update that replaces the association
set, resolve supplied tag/ingredient names with get-or-create semantics
scoped per owner: an existing row of that owner with the exact name is
reused (no duplicate per owner-and-name is created), other owners' rows
with the same name are untouched, and the recipe references the resolved
row. -/
theorem C5_get_or_create (s : Store) (owner : Nat) :
    (∀ title tm price tagNames ingNames n r s2, n ∈ tagNames →
      s.createRecipe owner title tm price tagNames ingNames = some (r, s2) →
      TagReuse s owner n r s2) ∧
    (∀ title tm price tagNames ingNames n r s2, n ∈ ingNames →
      s.createRecipe owner title tm price tagNames ingNames = some (r, s2) →
      IngredientReuse s owner n r s2) ∧
    (∀ rid p ns n r s2, p.tagNames = some ns → n ∈ ns →
      s.updateRecipe owner rid p = some (r, s2) → TagReuse s owner n r s2) ∧
    (∀ rid p ns n r s2, p.ingredientNames = some ns → n ∈ ns →
      s.updateRecipe owner rid p = some (r, s2) →
      IngredientReuse s owner n r s2) := by
  refine ⟨?_, ?_, ?_, ?_⟩
  · intro title tm price tagNames ingNames n r s2 hn hc
    by_cases hti : title.isEmpty
    · simp [Store.createRecipe, hti] at hc
    · simp only [Store.createRecipe, hti, if_neg, Bool.false_eq_true,
        not_false_eq_true, Option.some.injEq, Prod.mk.injEq] at hc
      obtain ⟨hr, hs⟩ := hc
      have hst : s2.tags = (s.resolveTags owner tagNames).2.tags := by
        rw [← hs]
        exact resolveIngredients_tags owner ingNames (s.resolveTags owner tagNames).2
      have hrt : r.tags = (s.resolveTags owner tagNames).1 := by
        rw [← hr]
      refine ⟨?_, ?_, ?_⟩
      · intro hle
        rw [tagRowCount_eq_of_tags owner n hst,
          resolveTags_count_self owner n tagNames s hn]
        omega
      · intro o' ho'
        rw [tagRowCount_eq_of_tags o' n hst,
          resolveTags_count_other_owner owner o' n ho' tagNames s]
      · obtain ⟨t, hmem, hu, hname, hid⟩ := resolveTags_assoc owner n tagNames s hn
        refine ⟨t, ?_, hu, hname, ?_⟩
        · rw [hst]
          exact hmem
        · rw [hrt]
          exact hid
  · intro title tm price tagNames ingNames n r s2 hn hc
    by_cases hti : title.isEmpty
    · simp [Store.createRecipe, hti] at hc
    · simp only [Store.createRecipe, hti, if_neg, Bool.false_eq_true,
        not_false_eq_true, Option.some.injEq, Prod.mk.injEq] at hc
      obtain ⟨hr, hs⟩ := hc
      have hsi : s2.ingredients =
          ((s.resolveTags owner tagNames).2.resolveIngredients owner ingNames).2.ingredients := by
        rw [← hs]
      have hri : r.ingredients =
          ((s.resolveTags owner tagNames).2.resolveIngredients owner ingNames).1 := by
        rw [← hr]
      refine ⟨?_, ?_, ?_⟩
      · intro hle
        rw [ingredientRowCount_eq_of_ingredients owner n hsi,
          resolveIngredients_count_self owner n ingNames
            (s.resolveTags owner tagNames).2 hn,
          ingredientRowCount_eq_of_ingredients owner n
            (resolveTags_ingredients owner tagNames s)]
        omega
      · intro o' ho'
        rw [ingredientRowCount_eq_of_ingredients o' n hsi,
          resolveIngredients_count_other_owner owner o' n ho' ingNames
            (s.resolveTags owner tagNames).2,
          ingredientRowCount_eq_of_ingredients o' n
            (resolveTags_ingredients owner tagNames s)]
      · obtain ⟨i, hmem, hu, hname, hid⟩ := resolveIngredients_assoc owner n
          ingNames (s.resolveTags owner tagNames).2 hn
        refine ⟨i, ?_, hu, hname, ?_⟩
        · rw [hsi]
          exact hmem
        · rw [hri]
          exact hid
  · intro rid p ns n r s2 htn hn hc
    cases hget : s.getRecipe owner rid with
    | none =>
      rw [show s.updateRecipe owner rid p = none by
        unfold Store.updateRecipe
        rw [hget]] at hc
      cases hc
    | some r0 =>
      cases hig : p.ingredientNames with
      | none =>
        simp only [Store.updateRecipe, hget, htn, hig, Option.some.injEq,
          Prod.mk.injEq] at hc
        obtain ⟨hr, hs⟩ := hc
        have hst : s2.tags = (s.resolveTags owner ns).2.tags := by
          rw [← hs]
        have hrt : r.tags = (s.resolveTags owner ns).1 := by
          rw [← hr]
        refine ⟨?_, ?_, ?_⟩
        · intro hle
          rw [tagRowCount_eq_of_tags owner n hst,
            resolveTags_count_self owner n ns s hn]
          omega
        · intro o' ho'
          rw [tagRowCount_eq_of_tags o' n hst,
            resolveTags_count_other_owner owner o' n ho' ns s]
        · obtain ⟨t, hmem, hu, hname, hid⟩ := resolveTags_assoc owner n ns s hn
          refine ⟨t, ?_, hu, hname, ?_⟩
          · rw [hst]
            exact hmem
          · rw [hrt]
            exact hid
      | some igns =>
        simp only [Store.updateRecipe, hget, htn, hig, Option.some.injEq,
          Prod.mk.injEq] at hc
        obtain ⟨hr, hs⟩ := hc
        have hst : s2.tags = (s.resolveTags owner ns).2.tags := by
          rw [← hs]
          exact resolveIngredients_tags owner igns (s.resolveTags owner ns).2
        have hrt : r.tags = (s.resolveTags owner ns).1 := by
          rw [← hr]
        refine ⟨?_, ?_, ?_⟩
        · intro hle
          rw [tagRowCount_eq_of_tags owner n hst,
            resolveTags_count_self owner n ns s hn]
          omega
        · intro o' ho'
          rw [tagRowCount_eq_of_tags o' n hst,
            resolveTags_count_other_owner owner o' n ho' ns s]
        · obtain ⟨t, hmem, hu, hname, hid⟩ := resolveTags_assoc owner n ns s hn
          refine ⟨t, ?_, hu, hname, ?_⟩
          · rw [hst]
            exact hmem
          · rw [hrt]
            exact hid
  · intro rid p ns n r s2 hin hn hc
    cases hget : s.getRecipe owner rid with
    | none =>
      rw [show s.updateRecipe owner rid p = none by
        unfold Store.updateRecipe
        rw [hget]] at hc
      cases hc
    | some r0 =>
      cases htg : p.tagNames with
      | none =>
        simp only [Store.updateRecipe, hget, htg, hin, Option.some.injEq,
          Prod.mk.injEq] at hc
        obtain ⟨hr, hs⟩ := hc
        have hsi : s2.ingredients =
            (s.resolveIngredients owner ns).2.ingredients := by
          rw [← hs]
        have hri : r.ingredients = (s.resolveIngredients owner ns).1 := by
          rw [← hr]
        refine ⟨?_, ?_, ?_⟩
        · intro hle
          rw [ingredientRowCount_eq_of_ingredients owner n hsi,
            resolveIngredients_count_self owner n ns s hn]
          omega
        · intro o' ho'
          rw [ingredientRowCount_eq_of_ingredients o' n hsi,
            resolveIngredients_count_other_owner owner o' n ho' ns s]
        · obtain ⟨i, hmem, hu, hname, hid⟩ :=
            resolveIngredients_assoc owner n ns s hn
          refine ⟨i, ?_, hu, hname, ?_⟩
          · rw [hsi]
            exact hmem
          · rw [hri]
            exact hid
      | some tgns =>
        simp only [Store.updateRecipe, hget, htg, hin, Option.some.injEq,
          Prod.mk.injEq] at hc
        obtain ⟨hr, hs⟩ := hc
        have hsi : s2.ingredients =
            ((s.resolveTags owner tgns).2.resolveIngredients owner ns).2.ingredients := by
          rw [← hs]
        have hri : r.ingredients =
            ((s.resolveTags owner tgns).2.resolveIngredients owner ns).1 := by
          rw [← hr]
        refine ⟨?_, ?_, ?_⟩
        · intro hle
          rw [ingredientRowCount_eq_of_ingredients owner n hsi,
            resolveIngredients_count_self owner n ns
              (s.resolveTags owner tgns).2 hn,
            ingredientRowCount_eq_of_ingredients owner n
              (resolveTags_ingredients owner tgns s)]
          omega
        · intro o' ho'
          rw [ingredientRowCount_eq_of_ingredients o' n hsi,
            resolveIngredients_count_other_owner owner o' n ho' ns
              (s.resolveTags owner tgns).2,
            ingredientRowCount_eq_of_ingredients o' n
              (resolveTags_ingredients owner tgns s)]
        · obtain ⟨i, hmem, hu, hname, hid⟩ := resolveIngredients_assoc owner n
            ns (s.resolveTags owner tgns).2 hn
          refine ⟨i, ?_, hu, hname, ?_⟩
          · rw [hsi]
            exact hmem
          · rw [hri]
            exact hid

/-- The recipe produced by the witness create below. -/
def wRecipe : Recipe := ⟨11, 1, "Cake", 30, 450, [9], [10]⟩

/-- The store resulting from the witness create below. -/
def wStore2 : Store :=
  ⟨[⟨1, 1, "Breakfast"⟩, ⟨2, 1, "Lunch"⟩, ⟨3, 2, "Hello"⟩, ⟨9, 1, "Veg"⟩],
   [⟨4, 1, "Apples"⟩, ⟨5, 1, "Turkey"⟩, ⟨6, 2, "Salt"⟩, ⟨10, 1, "Flour"⟩],
   [⟨7, 1, "Green Eggs", 10, 555, [1], [4]⟩, ⟨8, 2, "Soup", 5, 200, [3], [6]⟩,
    ⟨11, 1, "Cake", 30, 450, [9], [10]⟩]⟩

/-- C5 witness: creating recipe "Cake" with tag name "Veg" for user 1 in
the concrete store resolves the tag with get-or-create semantics (one
"Veg" row for user 1, user 2's rows untouched, recipe linked to it). -/
theorem C5_witness : TagReuse wStore 1 "Veg" wRecipe wStore2 :=
  (C5_get_or_create wStore 1).1 "Cake" 30 450 ["Veg"] ["Flour"] "Veg" wRecipe
    wStore2 (by decide) (by decide)

/-- Modelled from the spec: one primitive row write of a recipe create or
update sequence — inserting a tag, ingredient or recipe row, or rewriting
an owned recipe row in place. -/
inductive WriteStep where
  | putTag (t : Tag)
  | putIngredient (i : Ingredient)
  | putRecipe (r : Recipe)
  | setRecipe (owner rid : Nat) (r : Recipe)
  deriving DecidableEq

/-- Apply one primitive write to the store. -/
def Store.applyStep (s : Store) : WriteStep → Store
  | WriteStep.putTag t => { s with tags := s.tags ++ [t] }
  | WriteStep.putIngredient i => { s with ingredients := s.ingredients ++ [i] }
  | WriteStep.putRecipe r => { s with recipes := s.recipes ++ [r] }
  | WriteStep.setRecipe owner rid r =>
    { s with recipes := s.recipes.map (fun q =>
        if q.id == rid && q.user == owner then r else q) }

/-- Apply a write sequence in order. -/
def Store.applySteps (s : Store) (ws : List WriteStep) : Store :=
  ws.foldl Store.applyStep s

/-- Modelled from the spec: the write sequence of a recipe create — the
newly created tag rows, the newly created ingredient rows, then the recipe
row carrying the association sets; `none` when validation fails before any
write. -/
def Store.createRecipePlan (s : Store) (owner : Nat) (title : String)
    (tm price : Nat) (tagNames ingNames : List String) :
    Option (Recipe × List WriteStep) :=
  match s.createRecipe owner title tm price tagNames ingNames with
  | none => none
  | some (r, s2) =>
    some (r, (s2.tags.drop s.tags.length).map WriteStep.putTag ++
      (s2.ingredients.drop s.ingredients.length).map WriteStep.putIngredient ++
      [WriteStep.putRecipe r])

/-- Modelled from the spec: execute the create write sequence as a single
atomic unit, with a storage failure injected before the write at position
`failAt` when that position lies within the sequence; a failed unit
commits none of its writes (the caller observes `none` and retains the
store exactly as it was). -/
def Store.runCreateTx (s : Store) (owner : Nat) (title : String)
    (tm price : Nat) (tagNames ingNames : List String)
    (failAt : Option Nat) : Option (Recipe × Store) :=
  match s.createRecipePlan owner title tm price tagNames ingNames with
  | none => none
  | some (r, ws) =>
    match failAt with
    | none => some (r, s.applySteps ws)
    | some k => if k < ws.length then none else some (r, s.applySteps ws)

/-- Modelled from the spec: the write sequence of a recipe update — the
newly created tag rows, the newly created ingredient rows, then the
in-place rewrite of the owned recipe row carrying the replaced fields and
association sets; `none` when the recipe is absent or not owned (nothing
is written). -/
def Store.updateRecipePlan (s : Store) (owner rid : Nat) (p : RecipePatch) :
    Option (Recipe × List WriteStep) :=
  match s.updateRecipe owner rid p with
  | none => none
  | some (r2, s2) =>
    some (r2, (s2.tags.drop s.tags.length).map WriteStep.putTag ++
      (s2.ingredients.drop s.ingredients.length).map WriteStep.putIngredient ++
      [WriteStep.setRecipe owner rid r2])

/-- Modelled from the spec: execute the update write sequence as a single
atomic unit, with a storage failure injected before the write at position
`failAt` when that position lies within the sequence; a failed unit
commits none of its writes. -/
def Store.runUpdateTx (s : Store) (owner rid : Nat) (p : RecipePatch)
    (failAt : Option Nat) : Option (Recipe × Store) :=
  match s.updateRecipePlan owner rid p with
  | none => none
  | some (r2, ws) =>
    match failAt with
    | none => some (r2, s.applySteps ws)
    | some k => if k < ws.length then none else some (r2, s.applySteps ws)

theorem Store.ext_fields {a b : Store} (h1 : a.tags = b.tags)
    (h2 : a.ingredients = b.ingredients) (h3 : a.recipes = b.recipes) :
    a = b := by
  cases a
  cases b
  simp_all

theorem applySteps_putTags (ts : List Tag) :
    ∀ s : Store, s.applySteps (ts.map WriteStep.putTag) =
      { s with tags := s.tags ++ ts } := by
  induction ts with
  | nil =>
    intro s
    show s = _
    cases s
    simp
  | cons t ts ih =>
    intro s
    show Store.applySteps { s with tags := s.tags ++ [t] }
      (ts.map WriteStep.putTag) = _
    rw [ih]
    cases s
    simp

theorem applySteps_putIngredients (is : List Ingredient) :
    ∀ s : Store, s.applySteps (is.map WriteStep.putIngredient) =
      { s with ingredients := s.ingredients ++ is } := by
  induction is with
  | nil =>
    intro s
    show s = _
    cases s
    simp
  | cons i is ih =>
    intro s
    show Store.applySteps { s with ingredients := s.ingredients ++ [i] }
      (is.map WriteStep.putIngredient) = _
    rw [ih]
    cases s
    simp

theorem applySteps_append (s : Store) (ws1 ws2 : List WriteStep) :
    s.applySteps (ws1 ++ ws2) = (s.applySteps ws1).applySteps ws2 :=
  List.foldl_append _ _ _ _

theorem createRecipe_fields (s : Store) (owner : Nat) (title : String)
    (tm price : Nat) (tagNames ingNames : List String) (r : Recipe)
    (s2 : Store)
    (hc : s.createRecipe owner title tm price tagNames ingNames = some (r, s2)) :
    (∃ a, s2.tags = s.tags ++ a) ∧ (∃ b, s2.ingredients = s.ingredients ++ b) ∧
      s2.recipes = s.recipes ++ [r] := by
  by_cases hti : title.isEmpty
  · simp [Store.createRecipe, hti] at hc
  · simp only [Store.createRecipe, hti, if_neg, Bool.false_eq_true,
      not_false_eq_true, Option.some.injEq, Prod.mk.injEq] at hc
    obtain ⟨hr, hs⟩ := hc
    refine ⟨?_, ?_, ?_⟩
    · obtain ⟨a, ha⟩ := resolveTags_tags_ext owner tagNames s
      refine ⟨a, ?_⟩
      rw [← hs]
      show ((s.resolveTags owner tagNames).2.resolveIngredients owner
        ingNames).2.tags = s.tags ++ a
      rw [resolveIngredients_tags owner ingNames (s.resolveTags owner tagNames).2]
      exact ha
    · obtain ⟨b, hb⟩ := resolveIngredients_ingredients_ext owner ingNames
        (s.resolveTags owner tagNames).2
      refine ⟨b, ?_⟩
      rw [← hs]
      show ((s.resolveTags owner tagNames).2.resolveIngredients owner
        ingNames).2.ingredients = s.ingredients ++ b
      rw [hb, resolveTags_ingredients owner tagNames s]
    · rw [← hs, ← hr]
      show ((s.resolveTags owner tagNames).2.resolveIngredients owner
          ingNames).2.recipes ++ [_] = s.recipes ++ [_]
      rw [resolveIngredients_recipes owner ingNames
        (s.resolveTags owner tagNames).2, resolveTags_recipes owner tagNames s]

theorem applySteps_createPlan (s : Store) (owner : Nat) (title : String)
    (tm price : Nat) (tagNames ingNames : List String) (r : Recipe)
    (s2 : Store)
    (hc : s.createRecipe owner title tm price tagNames ingNames = some (r, s2)) :
    s.applySteps ((s2.tags.drop s.tags.length).map WriteStep.putTag ++
      (s2.ingredients.drop s.ingredients.length).map WriteStep.putIngredient ++
      [WriteStep.putRecipe r]) = s2 := by
  obtain ⟨⟨a, ha⟩, ⟨b, hb⟩, hrec⟩ :=
    createRecipe_fields s owner title tm price tagNames ingNames r s2 hc
  have hda : s2.tags.drop s.tags.length = a := by
    rw [ha]
    exact List.drop_left s.tags a
  have hdb : s2.ingredients.drop s.ingredients.length = b := by
    rw [hb]
    exact List.drop_left s.ingredients b
  rw [hda, hdb, applySteps_append, applySteps_append, applySteps_putTags,
    applySteps_putIngredients]
  refine Store.ext_fields ?_ ?_ ?_
  · exact ha.symm
  · exact hb.symm
  · exact hrec.symm

theorem updateRecipe_fields (s : Store) (owner rid : Nat) (p : RecipePatch)
    (r2 : Recipe) (s2 : Store)
    (hc : s.updateRecipe owner rid p = some (r2, s2)) :
    (∃ a, s2.tags = s.tags ++ a) ∧ (∃ b, s2.ingredients = s.ingredients ++ b) ∧
      s2.recipes = s.recipes.map (fun q =>
        if q.id == rid && q.user == owner then r2 else q) := by
  cases hget : s.getRecipe owner rid with
  | none =>
    rw [show s.updateRecipe owner rid p = none by
      unfold Store.updateRecipe
      rw [hget]] at hc
    cases hc
  | some r0 =>
    cases htg : p.tagNames with
    | none =>
      cases hig : p.ingredientNames with
      | none =>
        simp only [Store.updateRecipe, hget, htg, hig, Option.some.injEq,
          Prod.mk.injEq] at hc
        obtain ⟨hr, hs⟩ := hc
        refine ⟨⟨[], ?_⟩, ⟨[], ?_⟩, ?_⟩
        · rw [← hs]
          simp
        · rw [← hs]
          simp
        · rw [← hs, ← hr]
      | some igns =>
        simp only [Store.updateRecipe, hget, htg, hig, Option.some.injEq,
          Prod.mk.injEq] at hc
        obtain ⟨hr, hs⟩ := hc
        refine ⟨⟨[], ?_⟩, ?_, ?_⟩
        · rw [← hs]
          show (s.resolveIngredients owner igns).2.tags = s.tags ++ []
          rw [resolveIngredients_tags owner igns s]
          simp
        · obtain ⟨b, hb⟩ := resolveIngredients_ingredients_ext owner igns s
          refine ⟨b, ?_⟩
          rw [← hs]
          exact hb
        · rw [← hs, ← hr]
          show (s.resolveIngredients owner igns).2.recipes.map _ =
            s.recipes.map _
          rw [resolveIngredients_recipes owner igns s]
    | some tgns =>
      cases hig : p.ingredientNames with
      | none =>
        simp only [Store.updateRecipe, hget, htg, hig, Option.some.injEq,
          Prod.mk.injEq] at hc
        obtain ⟨hr, hs⟩ := hc
        refine ⟨?_, ⟨[], ?_⟩, ?_⟩
        · obtain ⟨a, ha⟩ := resolveTags_tags_ext owner tgns s
          refine ⟨a, ?_⟩
          rw [← hs]
          exact ha
        · rw [← hs]
          show (s.resolveTags owner tgns).2.ingredients = s.ingredients ++ []
          rw [resolveTags_ingredients owner tgns s]
          simp
        · rw [← hs, ← hr]
          show (s.resolveTags owner tgns).2.recipes.map _ = s.recipes.map _
          rw [resolveTags_recipes owner tgns s]
      | some igns =>
        simp only [Store.updateRecipe, hget, htg, hig, Option.some.injEq,
          Prod.mk.injEq] at hc
        obtain ⟨hr, hs⟩ := hc
        refine ⟨?_, ?_, ?_⟩
        · obtain ⟨a, ha⟩ := resolveTags_tags_ext owner tgns s
          refine ⟨a, ?_⟩
          rw [← hs]
          show ((s.resolveTags owner tgns).2.resolveIngredients owner
            igns).2.tags = s.tags ++ a
          rw [resolveIngredients_tags owner igns (s.resolveTags owner tgns).2]
          exact ha
        · obtain ⟨b, hb⟩ := resolveIngredients_ingredients_ext owner igns
            (s.resolveTags owner tgns).2
          refine ⟨b, ?_⟩
          rw [← hs]
          show ((s.resolveTags owner tgns).2.resolveIngredients owner
            igns).2.ingredients = s.ingredients ++ b
          rw [hb, resolveTags_ingredients owner tgns s]
        · rw [← hs, ← hr]
          show ((s.resolveTags owner tgns).2.resolveIngredients owner
            igns).2.recipes.map _ = s.recipes.map _
          rw [resolveIngredients_recipes owner igns
            (s.resolveTags owner tgns).2, resolveTags_recipes owner tgns s]

theorem applySteps_updatePlan (s : Store) (owner rid : Nat) (p : RecipePatch)
    (r2 : Recipe) (s2 : Store)
    (hc : s.updateRecipe owner rid p = some (r2, s2)) :
    s.applySteps ((s2.tags.drop s.tags.length).map WriteStep.putTag ++
      (s2.ingredients.drop s.ingredients.length).map WriteStep.putIngredient ++
      [WriteStep.setRecipe owner rid r2]) = s2 := by
  obtain ⟨⟨a, ha⟩, ⟨b, hb⟩, hrec⟩ := updateRecipe_fields s owner rid p r2 s2 hc
  have hda : s2.tags.drop s.tags.length = a := by
    rw [ha]
    exact List.drop_left s.tags a
  have hdb : s2.ingredients.drop s.ingredients.length = b := by
    rw [hb]
    exact List.drop_left s.ingredients b
  rw [hda, hdb, applySteps_append, applySteps_append, applySteps_putTags,
    applySteps_putIngredients]
  refine Store.ext_fields ?_ ?_ ?_
  · exact ha.symm
  · exact hb.symm
  · exact hrec.symm

/-- C6: a recipe create or update that writes multiple rows (get-or-create
tag rows, get-or-create ingredient rows, the recipe row with its
association sets) is atomic: committing the whole write sequence yields
exactly the repository operation's result; for any injected failure point
the outcome is all (every row committed) or nothing (`none`, the caller
retaining the store unchanged); and a failure at any position inside the
write sequence yields nothing. -/
theorem C6_write_atomicity (s : Store) (owner : Nat) :
    (∀ title tm price tagNames ingNames,
      (s.runCreateTx owner title tm price tagNames ingNames none =
        s.createRecipe owner title tm price tagNames ingNames) ∧
      (∀ failAt,
        s.runCreateTx owner title tm price tagNames ingNames failAt = none ∨
        s.runCreateTx owner title tm price tagNames ingNames failAt =
          s.createRecipe owner title tm price tagNames ingNames) ∧
      (∀ k r ws,
        s.createRecipePlan owner title tm price tagNames ingNames =
          some (r, ws) →
        k < ws.length →
        s.runCreateTx owner title tm price tagNames ingNames (some k) =
          none)) ∧
    (∀ rid p,
      (s.runUpdateTx owner rid p none = s.updateRecipe owner rid p) ∧
      (∀ failAt,
        s.runUpdateTx owner rid p failAt = none ∨
        s.runUpdateTx owner rid p failAt = s.updateRecipe owner rid p) ∧
      (∀ k r ws,
        s.updateRecipePlan owner rid p = some (r, ws) → k < ws.length →
        s.runUpdateTx owner rid p (some k) = none)) := by
  constructor
  · intro title tm price tagNames ingNames
    cases hc : s.createRecipe owner title tm price tagNames ingNames with
    | none =>
      have hplan : s.createRecipePlan owner title tm price tagNames ingNames =
          none := by
        unfold Store.createRecipePlan
        rw [hc]
      refine ⟨?_, fun failAt => Or.inl ?_, fun k r ws hplan2 hk => ?_⟩
      · simp [Store.runCreateTx, hplan]
      · simp [Store.runCreateTx, hplan]
      · rw [hplan] at hplan2
        cases hplan2
    | some rs =>
      obtain ⟨r, s2⟩ := rs
      have hplan : s.createRecipePlan owner title tm price tagNames ingNames =
          some (r, (s2.tags.drop s.tags.length).map WriteStep.putTag ++
            (s2.ingredients.drop s.ingredients.length).map
              WriteStep.putIngredient ++
            [WriteStep.putRecipe r]) := by
        unfold Store.createRecipePlan
        rw [hc]
      have happly := applySteps_createPlan s owner title tm price tagNames
        ingNames r s2 hc
      refine ⟨?_, fun failAt => ?_, fun k r2 ws hplan2 hk => ?_⟩
      · simp only [Store.runCreateTx, hplan]
        rw [happly]
      · cases failAt with
        | none =>
          refine Or.inr ?_
          simp only [Store.runCreateTx, hplan]
          rw [happly]
        | some k =>
          by_cases hk : k <
              ((s2.tags.drop s.tags.length).map WriteStep.putTag ++
                (s2.ingredients.drop s.ingredients.length).map
                  WriteStep.putIngredient ++
                [WriteStep.putRecipe r]).length
          · refine Or.inl ?_
            simp only [Store.runCreateTx, hplan]
            rw [if_pos hk]
          · refine Or.inr ?_
            simp only [Store.runCreateTx, hplan]
            rw [if_neg hk, happly]
      · rw [hplan] at hplan2
        rw [Option.some.injEq, Prod.mk.injEq] at hplan2
        obtain ⟨hr2, hws⟩ := hplan2
        rw [← hws] at hk
        simp only [Store.runCreateTx, hplan]
        rw [if_pos hk]
  · intro rid p
    cases hc : s.updateRecipe owner rid p with
    | none =>
      have hplan : s.updateRecipePlan owner rid p = none := by
        unfold Store.updateRecipePlan
        rw [hc]
      refine ⟨?_, fun failAt => Or.inl ?_, fun k r ws hplan2 hk => ?_⟩
      · simp [Store.runUpdateTx, hplan]
      · simp [Store.runUpdateTx, hplan]
      · rw [hplan] at hplan2
        cases hplan2
    | some rs =>
      obtain ⟨r2, s2⟩ := rs
      have hplan : s.updateRecipePlan owner rid p =
          some (r2, (s2.tags.drop s.tags.length).map WriteStep.putTag ++
            (s2.ingredients.drop s.ingredients.length).map
              WriteStep.putIngredient ++
            [WriteStep.setRecipe owner rid r2]) := by
        unfold Store.updateRecipePlan
        rw [hc]
      have happly := applySteps_updatePlan s owner rid p r2 s2 hc
      refine ⟨?_, fun failAt => ?_, fun k r3 ws hplan2 hk => ?_⟩
      · simp only [Store.runUpdateTx, hplan]
        rw [happly]
      · cases failAt with
        | none =>
          refine Or.inr ?_
          simp only [Store.runUpdateTx, hplan]
          rw [happly]
        | some k =>
          by_cases hk : k <
              ((s2.tags.drop s.tags.length).map WriteStep.putTag ++
                (s2.ingredients.drop s.ingredients.length).map
                  WriteStep.putIngredient ++
                [WriteStep.setRecipe owner rid r2]).length
          · refine Or.inl ?_
            simp only [Store.runUpdateTx, hplan]
            rw [if_pos hk]
          · refine Or.inr ?_
            simp only [Store.runUpdateTx, hplan]
            rw [if_neg hk, happly]
      · rw [hplan] at hplan2
        rw [Option.some.injEq, Prod.mk.injEq] at hplan2
        obtain ⟨hr3, hws⟩ := hplan2
        rw [← hws] at hk
        simp only [Store.runUpdateTx, hplan]
        rw [if_pos hk]

/-- C6 witness: injecting a failure at the first write of the concrete
"Cake" create, and at the first write of a concrete association-replacing
update of recipe 7, yields `none` both times (nothing committed). -/
theorem C6_witness :
    wStore.runCreateTx 1 "Cake" 30 450 ["Veg"] ["Flour"] (some 0) = none ∧
      wStore.runUpdateTx 1 7 ⟨none, none, none, some ["Veg"], none⟩
        (some 0) = none :=
  ⟨((C6_write_atomicity wStore 1).1 "Cake" 30 450 ["Veg"] ["Flour"]).2.2 0
      wRecipe
      ([WriteStep.putTag ⟨9, 1, "Veg"⟩] ++
        [WriteStep.putIngredient ⟨10, 1, "Flour"⟩] ++
        [WriteStep.putRecipe wRecipe]) (by decide) (by decide),
    ((C6_write_atomicity wStore 1).2 7
        ⟨none, none, none, some ["Veg"], none⟩).2.2 0
      ⟨7, 1, "Green Eggs", 10, 555, [9], [4]⟩
      ([WriteStep.putTag ⟨9, 1, "Veg"⟩] ++ [] ++
        [WriteStep.setRecipe 1 7 ⟨7, 1, "Green Eggs", 10, 555, [9], [4]⟩])
      (by decide) (by decide)⟩

namespace AdminCfg

/-- Field names referenced by `UserAdmin.fieldsets` in `core/admin.py`, in
source order: the unnamed section, the Permissions section, and the
Important date section. -/
def fieldsets_fields : List String :=
  ["emnail", "password", "is_active", "is_staff", "is_supperuser",
   "last_login"]

/-- Field names referenced by `UserAdmin.add_fieldsets` in
`core/admin.py`. -/
def add_fieldsets_fields : List String :=
  ["email", "password1", "password2", "is_active", "is_staff",
   "is_supperuser"]

/-- Field names in `UserAdmin.readonly_fields` in `core/admin.py`. -/
def readonly_fields : List String := ["last_login"]

/-- Field names in `UserAdmin.list_display` in `core/admin.py`. -/
def list_display : List String := ["email", "name"]

/-- Modelled from the spec: the field names of the registered User model
(`core/models.py` is missing from the source tree). Per the spec's data
model a User has a unique identifier, email, password hash, display name
and active/staff flags; the framework user model additionally carries the
superuser flag and the last-login timestamp. -/
def userModelFields : List String :=
  ["id", "email", "password", "name", "is_active", "is_staff",
   "is_superuser", "last_login"]

/-- Modelled from the spec: the names usable on the admin add page — the
model fields plus the two password entry fields contributed by the user
creation form. -/
def userAdminFormFields : List String :=
  userModelFields ++ ["password1", "password2"]

end AdminCfg

/-- C10: the claim states that every field name referenced by
`UserAdmin.fieldsets` and `UserAdmin.add_fieldsets` (including the email
and superuser-flag entries) names an actual field of the registered User
model or its admin forms. The code violates this: `fieldsets` references
"emnail" (not a User field; the model field is "email") and both
configurations reference "is_supperuser" (not a User field; the model
field is "is_superuser"), so constructing the admin pages would fail with
an unknown-field error. -/
theorem C10_admin_unknown_fields :
    "emnail" ∈ AdminCfg.fieldsets_fields ∧
      "emnail" ∉ AdminCfg.userModelFields ∧
      "is_supperuser" ∈ AdminCfg.fieldsets_fields ∧
      "is_supperuser" ∈ AdminCfg.add_fieldsets_fields ∧
      "is_supperuser" ∉ AdminCfg.userAdminFormFields ∧
      ¬ (∀ f ∈ AdminCfg.fieldsets_fields, f ∈ AdminCfg.userModelFields) ∧
      ¬ (∀ f ∈ AdminCfg.add_fieldsets_fields,
          f ∈ AdminCfg.userAdminFormFields) := by
  decide

end RecipeApp
